import Mathlib

/-!
# Minesweeper: a shallow embedding of `minesweeper.c`

The C program keeps its state in five process-wide variables (`board`,
`display_board`, `game_over`, `won`, `first_move`) and draws random numbers
from `rand()`.  Here the state is one record, `Game`, that every operation
takes and returns.

Modelling conventions.

* `WIDTH`, `HEIGHT` and `MINES` are compile-time macros that can be redefined
  on the compiler command line; they are the fields of `Config`.
* The two `char [HEIGHT][WIDTH]` arrays are functions `Int → Int → Char`
  indexed as in C, row first: `board y x` is `board[y][x]`.  The code only
  ever reads or writes a cell after a bounds check, and so does the model;
  what the functions hold outside the board is never looked at.
* C `int` coordinates are `Int`.  All sums in the program stay far below
  `INT_MAX` for any board that fits in memory, so no wrap-around is modelled.
* The `int` flags `game_over`, `won`, `first_move` only ever hold `0` or `1`
  and are only tested for being nonzero; they are `Bool`.
* `rand()` is modelled by the list of the values its next calls return
  (field `rand`); when the list is used up the call that needs a value does
  not return (`none`).
* `while` loops whose number of iterations is not fixed get a `fuel`
  argument and give no result when it runs out.
* The `queue` array of `reveal` is modelled by the list of the coordinate
  pairs between `front` and `rear`, together with the value of `rear` and
  the number of ints the array holds.  A write `queue[rear++]` past the end
  of the array is undefined behaviour in C: the model of the loop stops
  there with `Fill.overflow`, and `reveal` has no result (`none`).
* Terminal output (`puts`, `printf`, `draw`) is not modelled.
-/

namespace Minesweeper

/-- The three configuration macros `WIDTH`, `HEIGHT`, `MINES`. -/
structure Config where
  WIDTH : Nat
  HEIGHT : Nat
  MINES : Nat
  deriving DecidableEq, Repr

/-- The defaults of the source: a 9 by 9 board with 10 mines. -/
def Config.default : Config := ⟨9, 9, 10⟩

/-- The preprocessor test `#if MINES >= (WIDTH * HEIGHT - 1)` followed by `#error`:
`true` when the build is refused. -/
def Config.too_many_mines (cfg : Config) : Bool :=
  decide ((cfg.MINES : Int) ≥ (cfg.WIDTH : Int) * (cfg.HEIGHT : Int) - 1)

/-- A configuration the source compiles with. -/
def Config.accepted (cfg : Config) : Bool := !cfg.too_many_mines

def HIDDEN : Char := '.'
def MINE : Char := '*'
def REVEALED : Char := '0'
def FLAGGED : Char := 'F'
def MISS : Char := 'X'

/-- A `char [HEIGHT][WIDTH]` array, indexed row first. -/
abbrev Grid := Int → Int → Char

/-- The assignment `a[y][x] = v`. -/
def Grid.set (a : Grid) (y x : Int) (v : Char) : Grid :=
  fun y' x' => if y' = y ∧ x' = x then v else a y' x'

/-- The global variables of the program, and the pending values of `rand()`. -/
structure Game where
  board : Grid
  display_board : Grid
  game_over : Bool
  won : Bool
  first_move : Bool
  rand : List Nat

/-- The bounds test `nx >= 0 && nx < WIDTH && ny >= 0 && ny < HEIGHT`. -/
def in_bounds (cfg : Config) (x y : Int) : Bool :=
  decide (x ≥ 0 ∧ x < cfg.WIDTH ∧ y ≥ 0 ∧ y < cfg.HEIGHT)

/-- The values `-1, 0, 1` that `dx` and `dy` run through. -/
def deltas : List Int := [-1, 0, 1]

/-- Count adjacent mines for a cell: the two nested `for` loops over `dy` and `dx`,
each adding one to `count` for an in-bounds cell that holds `MINE`. -/
def count_adjacent_mines (cfg : Config) (board : Grid) (x y : Int) : Nat :=
  (deltas.map fun dy =>
    (deltas.map fun dx =>
      if in_bounds cfg (x + dx) (y + dy) && decide (board (y + dy) (x + dx) = MINE)
      then 1 else 0).sum).sum

/-- The `while (mines_placed < MINES)` loop of `place_mines`.  Each iteration
draws `x` and then `y` from `rand()`; the recursion is on the list of pending
random values, so the loop gives `none` when the values run out first. -/
def place_mines_loop (cfg : Config) (safe_x safe_y : Int) :
    List Nat → Nat → Grid → Option (Grid × List Nat)
  | [], mines_placed, board =>
      if mines_placed < cfg.MINES then none else some (board, [])
  | [r], mines_placed, board =>
      if mines_placed < cfg.MINES then none else some (board, [r])
  | rx :: ry :: rest, mines_placed, board =>
      if mines_placed < cfg.MINES then
        let x : Int := ((rx % cfg.WIDTH : Nat) : Int)
        let y : Int := ((ry % cfg.HEIGHT : Nat) : Int)
        if (x = safe_x ∧ y = safe_y) ∨ board y x = MINE then
          place_mines_loop cfg safe_x safe_y rest mines_placed board
        else
          place_mines_loop cfg safe_x safe_y rest (mines_placed + 1) (board.set y x MINE)
      else some (board, rx :: ry :: rest)

/-- Place mines after the first move, avoiding the safe cell: the new `board`
and the random values left over. -/
def place_mines (cfg : Config) (rand : List Nat) (board : Grid) (safe_x safe_y : Int) :
    Option (Grid × List Nat) :=
  place_mines_loop cfg safe_x safe_y rand 0 board

/-- The character stored for a revealed cell with `mine_count` adjacent mines:
`(mine_count == 0) ? ' ' : ('0' + mine_count)`. -/
def revealed_char (mine_count : Nat) : Char :=
  if mine_count = 0 then ' ' else Char.ofNat ('0'.toNat + mine_count)

/-- The neighbours that one iteration of the flood fill appends to the queue,
in the order of the two nested loops: every in-bounds neighbour, other than
the centre, that is still `HIDDEN` on the display and is not a mine. -/
def enqueued_neighbours (cfg : Config) (board display_board : Grid) (curr_x curr_y : Int) :
    List (Int × Int) :=
  deltas.flatMap fun dy =>
    deltas.filterMap fun dx =>
      if dx = 0 ∧ dy = 0 then none
      else if in_bounds cfg (curr_x + dx) (curr_y + dy)
          && decide (display_board (curr_y + dy) (curr_x + dx) = HIDDEN)
          && decide (board (curr_y + dy) (curr_x + dx) ≠ MINE)
        then some (curr_x + dx, curr_y + dy)
        else none

/-- The number of ints of the array `int queue[WIDTH * HEIGHT * 2]` of `reveal`. -/
def queue_size (cfg : Config) : Nat := cfg.WIDTH * cfg.HEIGHT * 2

/-- One iteration of the body of `while (front < rear)`, after the pair
`(curr_x, curr_y)` has been taken from the front of the queue: the new
display, the new pending part of the queue and the new value of `rear`.
`capacity` is the number of ints of the array `queue`; there is no result
(`none`) when one of the writes `queue[rear++]` of the iteration falls outside
the array. -/
def reveal_step (cfg : Config) (board : Grid) (capacity : Nat) (display_board : Grid)
    (curr_x curr_y : Int) (queue : List (Int × Int)) (rear : Nat) :
    Option (Grid × List (Int × Int) × Nat) :=
  if display_board curr_y curr_x ≠ HIDDEN then some (display_board, queue, rear)
  else
    let mine_count := count_adjacent_mines cfg board curr_x curr_y
    let display_board := display_board.set curr_y curr_x (revealed_char mine_count)
    if mine_count = 0 then
      let added := enqueued_neighbours cfg board display_board curr_x curr_y
      if rear + 2 * added.length ≤ capacity then
        some (display_board, queue ++ added, rear + 2 * added.length)
      else none
    else some (display_board, queue, rear)

/-- The ways the flood fill of `reveal` can come out. -/
inductive Fill where
  /-- The loop has ended: the display it leaves and the final value of `rear`. -/
  | done (display_board : Grid) (rear : Nat)
  /-- A write `queue[rear++]` fell outside the array. -/
  | overflow
  /-- The fuel of the model ran out before the loop ended. -/
  | out_of_fuel

/-- The display and the value of `rear` of a flood fill that has ended. -/
def Fill.result : Fill → Option (Grid × Nat)
  | Fill.done display_board rear => some (display_board, rear)
  | Fill.overflow => none
  | Fill.out_of_fuel => none

/-- The flood fill wrote outside the array `queue`. -/
def Fill.is_overflow : Fill → Bool
  | Fill.overflow => true
  | _ => false

/-- The flood-fill loop `while (front < rear)` of `reveal`.  `queue` holds the
pairs at positions `front .. rear` of the C array, which has `capacity` ints;
the loop ends when the list is empty. -/
def reveal_loop (cfg : Config) (board : Grid) (capacity : Nat) :
    Nat → Grid → List (Int × Int) → Nat → Fill
  | _, display_board, [], rear => Fill.done display_board rear
  | 0, _, _ :: _, _ => Fill.out_of_fuel
  | fuel + 1, display_board, (curr_x, curr_y) :: queue, rear =>
      match reveal_step cfg board capacity display_board curr_x curr_y queue rear with
      | none => Fill.overflow
      | some s => reveal_loop cfg board capacity fuel s.1 s.2.1 s.2.2

/-- The flood fill of `reveal`: the two writes `queue[rear++] = x`,
`queue[rear++] = y` that put the start on the queue, then the loop. -/
def flood_fill (cfg : Config) (board : Grid) (capacity fuel : Nat) (display_board : Grid)
    (x y : Int) : Fill :=
  if 2 ≤ capacity then reveal_loop cfg board capacity fuel display_board [(x, y)] 2
  else Fill.overflow

/-- The block `if (first_move) { place_mines(x, y); first_move = 0; }` of `reveal`. -/
def place_on_first_move (cfg : Config) (g : Game) (x y : Int) : Option Game :=
  if g.first_move then
    (place_mines cfg g.rand g.board x y).map fun p =>
      { g with board := p.1, rand := p.2, first_move := false }
  else some g

/-- Reveal a cell, with the iterative flood fill for empty areas.  The call has
no result (`none`) when the mine placement does not complete, when the flood
fill writes outside its array `queue`, or when the fuel runs out. -/
def reveal (cfg : Config) (fuel : Nat) (g : Game) (x y : Int) : Option Game :=
  if x < 0 ∨ x ≥ cfg.WIDTH ∨ y < 0 ∨ y ≥ cfg.HEIGHT then some g
  else if g.display_board y x ≠ HIDDEN then some g
  else
    (place_on_first_move cfg g x y).bind fun g =>
      if g.board y x = MINE then
        some { g with game_over := true, display_board := g.display_board.set y x MINE }
      else
        (flood_fill cfg g.board (queue_size cfg) fuel g.display_board x y).result.map fun r =>
          { g with display_board := r.1 }

/-- Whether the flood fill of the call `reveal(x, y)` writes outside the array
`queue` (`false` when the call does not get to the flood fill). -/
def reveal_overflows (cfg : Config) (fuel : Nat) (g : Game) (x y : Int) : Bool :=
  if x < 0 ∨ x ≥ cfg.WIDTH ∨ y < 0 ∨ y ≥ cfg.HEIGHT then false
  else if g.display_board y x ≠ HIDDEN then false
  else
    match place_on_first_move cfg g x y with
    | none => false
    | some g =>
      if g.board y x = MINE then false
      else (flood_fill cfg g.board (queue_size cfg) fuel g.display_board x y).is_overflow

/-- A number of ints that is room enough for the queue of any call: the start,
and at most 8 pairs for each cell of the board. -/
def queue_room (cfg : Config) : Nat := 16 * (cfg.WIDTH * cfg.HEIGHT) + 2

/-- The value `rear` ends at when the array `queue` has room for every write of
the call (`queue_room` ints): twice the number of coordinate pairs the flood
fill of the call puts on its queue (`0` when the call returns before the queue
is used). -/
def reveal_rear (cfg : Config) (fuel : Nat) (g : Game) (x y : Int) : Option Nat :=
  if x < 0 ∨ x ≥ cfg.WIDTH ∨ y < 0 ∨ y ≥ cfg.HEIGHT then some 0
  else if g.display_board y x ≠ HIDDEN then some 0
  else
    (place_on_first_move cfg g x y).bind fun g =>
      if g.board y x = MINE then some 0
      else (flood_fill cfg g.board (queue_room cfg) fuel g.display_board x y).result.map
        fun r => r.2

/-- Toggle flag on a cell. -/
def flag (cfg : Config) (g : Game) (x y : Int) : Game :=
  if x < 0 ∨ x ≥ cfg.WIDTH ∨ y < 0 ∨ y ≥ cfg.HEIGHT then g
  else if g.display_board y x ≠ HIDDEN ∧ g.display_board y x ≠ FLAGGED then g
  else if g.display_board y x = HIDDEN then
    { g with display_board := g.display_board.set y x FLAGGED }
  else if g.display_board y x = FLAGGED then
    { g with display_board := g.display_board.set y x HIDDEN }
  else g

/-- The two nested loops `for (y = 0; y < HEIGHT; y++)`, `for (x = 0; x < WIDTH; x++)`
that add one to a counter for every cell `[y][x]` that passes the test `p`. -/
def count_cells (cfg : Config) (p : Int → Int → Bool) : Nat :=
  ((List.range cfg.HEIGHT).map fun (y : Nat) =>
    ((List.range cfg.WIDTH).map fun (x : Nat) =>
      if p (y : Int) (x : Int) then 1 else 0).sum).sum

/-- Check win condition: the number of cells that are neither `HIDDEN` nor
`FLAGGED` is compared with `WIDTH * HEIGHT - MINES` (in `int`). -/
def check_win (cfg : Config) (g : Game) : Bool :=
  let revealed_count := count_cells cfg fun y x =>
    decide (g.display_board y x ≠ HIDDEN) && decide (g.display_board y x ≠ FLAGGED)
  let total_safe : Int := (cfg.WIDTH : Int) * (cfg.HEIGHT : Int) - (cfg.MINES : Int)
  decide ((revealed_count : Int) = total_safe)

/-- Count flagged cells. -/
def count_flags (cfg : Config) (g : Game) : Nat :=
  count_cells cfg fun y x => decide (g.display_board y x = FLAGGED)

/-- Check if the game should continue: the state after the call and the
returned value. -/
def game_continue (cfg : Config) (g : Game) : Game × Bool :=
  if g.game_over then (g, false)
  else
    let g := { g with won := check_win cfg g }
    if g.won then ({ g with game_over := true }, true)
    else (g, true)

/-- Initialize the game board: every cell of both arrays becomes `HIDDEN`. -/
def init_game (cfg : Config) (g : Game) : Game :=
  { g with
    board := fun y x => if in_bounds cfg x y then HIDDEN else g.board y x
    display_board := fun y x => if in_bounds cfg x y then HIDDEN else g.display_board y x
    game_over := false
    won := false
    first_move := true }

/-- What `process_input` gets out of one line of input with its two `sscanf` calls. -/
inductive Input where
  /-- `sscanf(input, "%c %d %d", &cmd, &x, &y) == 3` -/
  | command (cmd : Char) (x y : Int)
  /-- only `sscanf(input, "%c", &cmd) == 1` succeeds -/
  | letter (cmd : Char)
  /-- neither `sscanf` succeeds -/
  | unreadable
  deriving DecidableEq, Repr

/-- Process user input: `none` for the line stands for `fgets` returning `NULL`.
The result is the state after the call and the returned value; the call does
not return (`none`) when the `reveal` it makes does not. -/
def process_input (cfg : Config) (fuel : Nat) (g : Game) : Option Input → Option (Game × Bool)
  | none => some (g, false)
  | some (Input.command cmd x y) =>
      if x < 0 ∨ x ≥ cfg.HEIGHT ∨ y < 0 ∨ y ≥ cfg.WIDTH then some (g, true)
      else if cmd = 'r' ∨ cmd = 'R' then (reveal cfg fuel g y x).map fun g => (g, true)
      else if cmd = 'f' ∨ cmd = 'F' then some (flag cfg g y x, true)
      else some (g, true)
  | some (Input.letter cmd) =>
      if cmd = 'q' ∨ cmd = 'Q' then some (g, false) else some (g, true)
  | some Input.unreadable => some (g, true)

/-- The loop `while (game_continue()) { draw(); if (!process_input()) break; }` of
`main`, run on the lines of input that are left (`fgets` gives `NULL` after the
last one).  The result lists, for every call of `game_continue` in order, the
state right after that call and the line that `process_input` then handled
(`none` when the loop was left without a further line).  There is no result
when a `reveal` call of the run has none. -/
def main_loop (cfg : Config) (fuel : Nat) : List Input → Game → Option (List (Game × Option Input))
  | [], g => some [((game_continue cfg g).1, none)]
  | line :: lines, g =>
      let gc := game_continue cfg g
      if gc.2 = false then some [(gc.1, none)]
      else
        match process_input cfg fuel gc.1 (some line) with
        | none => none
        | some (g', continues) =>
            if continues = false then some [(gc.1, some line)]
            else (main_loop cfg fuel lines g').map fun t => (gc.1, some line) :: t

/-- The three values of the game status. -/
inductive Status where
  | InProgress
  | Won
  | Lost
  deriving DecidableEq, Repr

/-- The status as `draw` and `game_continue` report it: `game_over && won` is a
win, `game_over` alone a loss. -/
def status (g : Game) : Status :=
  if g.game_over && g.won then Status.Won
  else if g.game_over then Status.Lost
  else Status.InProgress

/-- A display character that stands for a revealed cell: one of the values
`(mine_count == 0) ? ' ' : ('0' + mine_count)` for a count from 0 to 8. -/
def is_revealed (c : Char) : Bool :=
  (List.range 9).any fun n => decide (c = revealed_char n)

/-- The number of cells of the board that the display shows as revealed. -/
def count_revealed (cfg : Config) (g : Game) : Nat :=
  count_cells cfg fun y x => is_revealed (g.display_board y x)

/-- The number of mines on the board. -/
def count_mines (cfg : Config) (board : Grid) : Nat :=
  count_cells cfg fun y x => decide (board y x = MINE)

/-- Enough fuel for the flood fill of `reveal` on any board of the configuration. -/
def reveal_fuel (cfg : Config) : Nat := 9 * (cfg.WIDTH * cfg.HEIGHT) + 1

/-- The board of the example: 3 by 3 with one mine. -/
def cfg33 : Config := ⟨3, 3, 1⟩

/-- A 3 by 3 game in progress with its mine at `(0,0)` and every cell hidden. -/
def game33 : Game :=
  { board := fun y x => if y = 0 ∧ x = 0 then MINE else HIDDEN
    display_board := fun _ _ => HIDDEN
    game_over := false
    won := false
    first_move := false
    rand := [] }

/-- The rows of the display, top row first. -/
def display_rows (cfg : Config) (g : Game) : List (List Char) :=
  (List.range cfg.HEIGHT).map fun (y : Nat) => (List.range cfg.WIDTH).map fun (x : Nat) =>
    g.display_board (y : Int) (x : Int)

/-- Every pair in the queue is an in-bounds cell that holds no mine. -/
def queue_ok (cfg : Config) (board : Grid) (queue : List (Int × Int)) : Prop :=
  ∀ p ∈ queue, in_bounds cfg p.1 p.2 = true ∧ board p.2 p.1 ≠ MINE

/-- The display `d` comes from `d0` by revealing cells: every cell either kept its
character, or was `HIDDEN`, in bounds and no mine, and now shows its count of
adjacent mines. -/
def reveals (cfg : Config) (board : Grid) (d0 d : Grid) : Prop :=
  ∀ x y : Int, d y x = d0 y x ∨
    (d0 y x = HIDDEN ∧ in_bounds cfg x y = true ∧ board y x ≠ MINE ∧
      d y x = revealed_char (count_adjacent_mines cfg board x y))

/-- The number of `HIDDEN` cells of a display. -/
def count_hidden (cfg : Config) (d : Grid) : Nat :=
  count_cells cfg fun y x => decide (d y x = HIDDEN)

/-- A fresh 3 by 3 game whose random source gives `0, 0`: the first `reveal` away
from `(0,0)` puts the one mine at `(0,0)`. -/
def fresh33 : Game := init_game cfg33 { game33 with rand := [0, 0] }

/-- The display of the example after `reveal(2,2)`: the hidden mine at the top
left, the three cells next to it with count 1, all others with count 0. -/
def rows33 : List (List Char) :=
  [[HIDDEN, revealed_char 1, revealed_char 0],
   [revealed_char 1, revealed_char 1, revealed_char 0],
   [revealed_char 0, revealed_char 0, revealed_char 0]]

/-- The value `WIDTH * HEIGHT - MINES` that `check_win` compares with, as an `int`. -/
def total_safe (cfg : Config) : Int :=
  (cfg.WIDTH : Int) * (cfg.HEIGHT : Int) - (cfg.MINES : Int)

/-- The coordinates (row, column) of the board whose display cell is `FLAGGED`. -/
def flagged_cells (cfg : Config) (g : Game) : Finset (Nat × Nat) :=
  (Finset.range cfg.HEIGHT ×ˢ Finset.range cfg.WIDTH).filter
    fun c => g.display_board (c.1 : Int) (c.2 : Int) = FLAGGED

/-- A 3 by 3 configuration with 8 mines: fewer mines than cells. -/
def cfg33_8 : Config := ⟨3, 3, 8⟩

/-- The offsets `(dx, dy)` of the eight neighbours of a cell. -/
def neighbour_offsets : List (Int × Int) :=
  [(-1, -1), (0, -1), (1, -1), (-1, 0), (1, 0), (-1, 1), (0, 1), (1, 1)]

/-- The adjacent mine count in the words of the specification: the number of the 8
neighbouring coordinates of `(x, y)`, clipped to the board bounds, that hold a
mine. -/
def neighbour_mines (cfg : Config) (board : Grid) (x y : Int) : Nat :=
  (neighbour_offsets.filter fun d =>
    in_bounds cfg (x + d.1) (y + d.2) && decide (board (y + d.2) (x + d.1) = MINE)).length

/-- A fresh game on the default 9 by 9 board whose random source puts the 10 mines
on the top row and at `(0,1)`. -/
def fresh99 : Game :=
  init_game Config.default
    { game33 with rand := [0, 0, 1, 0, 2, 0, 3, 0, 4, 0, 5, 0, 6, 0, 7, 0, 8, 0, 0, 1] }

/-- Two lines of input for the 3 by 3 example: reveal row 2 column 2, then reveal
row 0 column 0. -/
def lines33 : List Input := [Input.command 'r' 2 2, Input.command 'r' 0 0]

/-- The cell `(nx, ny)` is one of the 8 neighbours of `(x, y)`. -/
def is_neighbour (x y nx ny : Int) : Prop :=
  (nx - x ≤ 1 ∧ x - nx ≤ 1) ∧ (ny - y ≤ 1 ∧ y - ny ≤ 1) ∧ ¬ (nx = x ∧ ny = y)

/-- The extent of a cascade in the words of the specification: the least set of
cells that contains the target `(tx, ty)` and, for every cell in it whose
adjacent mine count is 0, every in-bounds neighbour of that cell that was
`HIDDEN` on the display `d0` before the call. -/
inductive Cascade (cfg : Config) (board d0 : Grid) (tx ty : Int) : Int → Int → Prop where
  | target : Cascade cfg board d0 tx ty tx ty
  | spread (x y nx ny : Int) :
      Cascade cfg board d0 tx ty x y → neighbour_mines cfg board x y = 0 →
      is_neighbour x y nx ny → in_bounds cfg nx ny = true → d0 ny nx = HIDDEN →
      Cascade cfg board d0 tx ty nx ny

/-- The invariant of the flood-fill loop with respect to the cascade from
`(tx, ty)` on the display `d0` of the start of the call: the display `d` only
gained revealed cells; the queue is well formed; queued cells and changed cells
belong to the cascade; the hidden-before neighbours of a revealed cell with
count 0 are revealed or queued; and so is the target. -/
structure CascadeInv (cfg : Config) (board d0 : Grid) (tx ty : Int) (d : Grid)
    (q : List (Int × Int)) : Prop where
  rev : reveals cfg board d0 d
  ok : queue_ok cfg board q
  queued : ∀ p ∈ q, Cascade cfg board d0 tx ty p.1 p.2
  changed : ∀ x y : Int, d y x ≠ d0 y x → Cascade cfg board d0 tx ty x y
  closed : ∀ x y : Int, d0 y x = HIDDEN → d y x ≠ HIDDEN →
    count_adjacent_mines cfg board x y = 0 →
    ∀ nx ny : Int, is_neighbour x y nx ny → in_bounds cfg nx ny = true → d0 ny nx = HIDDEN →
      d ny nx ≠ HIDDEN ∨ (nx, ny) ∈ q
  start : d ty tx ≠ HIDDEN ∨ (tx, ty) ∈ q

/-- A 3 by 3 game in progress with its mine at `(2,2)` and every cell hidden. -/
def game33_22 : Game :=
  { game33 with board := fun y x => if y = 2 ∧ x = 2 then MINE else HIDDEN }

/-- A fresh 3 by 3 game whose random source gives `2, 2`: the first `reveal` away
from `(2,2)` puts the one mine at `(2,2)`. -/
def fresh33_22 : Game := init_game cfg33 { game33 with rand := [2, 2] }

/-- The default 9 by 9 game of `fresh99` after the mine placement of the first move
`reveal(8, 8)`: mines on the top row and at `(0,1)`, every cell hidden. -/
def placed99 : Game := (place_on_first_move Config.default fresh99 8 8).getD fresh99

/-! # Theorems -/

/-! ## Bounds test and array assignment -/

theorem in_bounds_iff (cfg : Config) (x y : Int) :
    in_bounds cfg x y = true ↔ (0 ≤ x ∧ x < cfg.WIDTH ∧ 0 ≤ y ∧ y < cfg.HEIGHT) := by
  simp [in_bounds]

theorem in_bounds_false_iff (cfg : Config) (x y : Int) :
    in_bounds cfg x y = false ↔ (x < 0 ∨ x ≥ cfg.WIDTH ∨ y < 0 ∨ y ≥ cfg.HEIGHT) := by
  rw [← Bool.not_eq_true, in_bounds_iff]
  constructor
  · intro h
    by_contra hc
    push_neg at hc
    exact h ⟨hc.1, hc.2.1, hc.2.2.1, hc.2.2.2⟩
  · rintro h ⟨h1, h2, h3, h4⟩
    rcases h with h | h | h | h <;> omega

theorem not_guard_of_in_bounds {cfg : Config} {x y : Int} (h : in_bounds cfg x y = true) :
    ¬ (x < 0 ∨ x ≥ cfg.WIDTH ∨ y < 0 ∨ y ≥ cfg.HEIGHT) := by
  intro hg
  rw [(in_bounds_false_iff cfg x y).2 hg] at h
  exact Bool.noConfusion h

theorem in_bounds_of_not_guard {cfg : Config} {x y : Int}
    (h : ¬ (x < 0 ∨ x ≥ cfg.WIDTH ∨ y < 0 ∨ y ≥ cfg.HEIGHT)) : in_bounds cfg x y = true := by
  cases hb : in_bounds cfg x y
  · exact absurd ((in_bounds_false_iff cfg x y).1 hb) h
  · rfl

theorem Grid.set_same (a : Grid) (y x : Int) (v : Char) : (a.set y x v) y x = v := by
  simp [Grid.set]

theorem Grid.set_other (a : Grid) (y x y' x' : Int) (v : Char) (h : ¬ (y' = y ∧ x' = x)) :
    (a.set y x v) y' x' = a y' x' := by
  simp [Grid.set, h]

theorem Grid.set_set (a : Grid) (y x : Int) (v w : Char) :
    (a.set y x v).set y x w = a.set y x w := by
  funext y' x'
  by_cases h : y' = y ∧ x' = x <;> simp [Grid.set, h]

theorem Grid.set_self (a : Grid) (y x : Int) : a.set y x (a y x) = a := by
  funext y' x'
  by_cases h : y' = y ∧ x' = x
  · obtain ⟨rfl, rfl⟩ := h
    simp [Grid.set]
  · simp [Grid.set, h]

/-! ## Guards of `reveal` and the toggle of `flag` -/

theorem reveal_guard_noop (cfg : Config) (fuel : Nat) (g : Game) (x y : Int)
    (h : in_bounds cfg x y = false ∨ g.display_board y x ≠ HIDDEN) :
    reveal cfg fuel g x y = some g := by
  unfold reveal
  by_cases hb : x < 0 ∨ x ≥ cfg.WIDTH ∨ y < 0 ∨ y ≥ cfg.HEIGHT
  · rw [if_pos hb]
  · rw [if_neg hb]
    rcases h with h | h
    · exact absurd ((in_bounds_false_iff cfg x y).1 h) hb
    · rw [if_pos h]

/-- C7: `reveal` on a coordinate that is out of bounds, or whose display cell is
not `HIDDEN` (already revealed, flagged or exploded), returns with the whole
state unchanged: both layouts, the first-move flag, the status and the pending
random values; no mines are placed, also when it is the first call. -/
theorem reveal_invalid_target_noop (cfg : Config) (fuel : Nat) (g : Game) (x y : Int)
    (h : in_bounds cfg x y = false ∨ g.display_board y x ≠ HIDDEN) :
    reveal cfg fuel g x y = some g :=
  reveal_guard_noop cfg fuel g x y h

theorem reveal_invalid_target_noop_witness :
    (in_bounds cfg33 3 0 = false ∨ game33.display_board 0 3 ≠ HIDDEN) ∧
      reveal cfg33 0 game33 3 0 = some game33 :=
  ⟨Or.inl (by decide), reveal_invalid_target_noop cfg33 0 game33 3 0 (Or.inl (by decide))⟩

/-- C8: on an in-bounds cell that is `HIDDEN` or `FLAGGED`, two `flag` calls in a
row give back exactly the state before them. -/
theorem flag_flag (cfg : Config) (g : Game) (x y : Int)
    (hb : in_bounds cfg x y = true)
    (hc : g.display_board y x = HIDDEN ∨ g.display_board y x = FLAGGED) :
    flag cfg (flag cfg g x y) x y = g := by
  have hnb := not_guard_of_in_bounds hb
  have hFH : FLAGGED ≠ HIDDEN := by decide
  rcases hc with hc | hc
  · simp [flag, hnb, hc, Grid.set_same, Grid.set_set, hFH]
    rw [← hc, Grid.set_self]
  · simp [flag, hnb, hc, Grid.set_same, Grid.set_set, hFH]
    rw [← hc, Grid.set_self]

theorem flag_flag_witness :
    in_bounds cfg33 1 2 = true ∧
      (game33.display_board 2 1 = HIDDEN ∨ game33.display_board 2 1 = FLAGGED) ∧
      flag cfg33 (flag cfg33 game33 1 2) 1 2 = game33 :=
  ⟨by decide, Or.inl (by decide),
    flag_flag cfg33 game33 1 2 (by decide) (Or.inl (by decide))⟩

theorem flag_display_other (cfg : Config) (g : Game) (x y x' y' : Int)
    (h : ¬ (y' = y ∧ x' = x)) :
    (flag cfg g x y).display_board y' x' = g.display_board y' x' := by
  unfold flag
  split_ifs <;> simp [Grid.set_other _ _ _ _ _ _ h]

theorem flag_fields (cfg : Config) (g : Game) (x y : Int) :
    (flag cfg g x y).board = g.board ∧ (flag cfg g x y).first_move = g.first_move ∧
      (flag cfg g x y).game_over = g.game_over ∧ (flag cfg g x y).won = g.won ∧
      (flag cfg g x y).rand = g.rand := by
  unfold flag
  split_ifs <;> simp

/-- C9: `flag` turns a `HIDDEN` in-bounds target into `FLAGGED` and a `FLAGGED` one
into `HIDDEN`; a target that is out of bounds or shows anything else (revealed,
exploded mine) leaves the state as it is; and in every case the display of all
other coordinates, the true layout, the first-move flag and the status
variables stay the same. -/
theorem flag_effect_and_frame (cfg : Config) (g : Game) (x y : Int) :
    (in_bounds cfg x y = true → g.display_board y x = HIDDEN →
        (flag cfg g x y).display_board y x = FLAGGED) ∧
    (in_bounds cfg x y = true → g.display_board y x = FLAGGED →
        (flag cfg g x y).display_board y x = HIDDEN) ∧
    (in_bounds cfg x y = false ∨
        (g.display_board y x ≠ HIDDEN ∧ g.display_board y x ≠ FLAGGED) →
        flag cfg g x y = g) ∧
    (∀ x' y' : Int, ¬ (y' = y ∧ x' = x) →
        (flag cfg g x y).display_board y' x' = g.display_board y' x') ∧
    (flag cfg g x y).board = g.board ∧
    (flag cfg g x y).first_move = g.first_move ∧
    (flag cfg g x y).game_over = g.game_over ∧
    (flag cfg g x y).won = g.won ∧
    status (flag cfg g x y) = status g := by
  have hf := flag_fields cfg g x y
  refine ⟨?_, ?_, ?_, ?_, hf.1, hf.2.1, hf.2.2.1, hf.2.2.2.1, ?_⟩
  · intro hb hc
    simp [flag, not_guard_of_in_bounds hb, hc, Grid.set_same]
  · intro hb hc
    have hFH : FLAGGED ≠ HIDDEN := by decide
    simp [flag, not_guard_of_in_bounds hb, hc, Grid.set_same, hFH]
  · rintro (h | h)
    · unfold flag
      rw [if_pos ((in_bounds_false_iff cfg x y).1 h)]
    · unfold flag
      split_ifs <;> rfl
  · intro x' y' h
    exact flag_display_other cfg g x y x' y' h
  · simp [status, hf.2.2.1, hf.2.2.2.1]

/-! ## Counting cells -/

theorem sum_map_range (f : Nat → Nat) (n : Nat) :
    ((List.range n).map f).sum = ∑ i in Finset.range n, f i := by
  induction n with
  | zero => simp
  | succ k ih => simp [List.range_succ, Finset.sum_range_succ, ih]

/-- The cells of the board as a finite set of pairs (row, column). -/
theorem count_cells_eq_card (cfg : Config) (p : Int → Int → Bool) :
    count_cells cfg p =
      ((Finset.range cfg.HEIGHT ×ˢ Finset.range cfg.WIDTH).filter
        fun c => p (c.1 : Int) (c.2 : Int) = true).card := by
  unfold count_cells
  rw [sum_map_range]
  simp only [sum_map_range]
  rw [← Finset.sum_product', Finset.card_filter]

theorem count_cells_congr (cfg : Config) (p q : Int → Int → Bool)
    (h : ∀ x y : Int, in_bounds cfg x y = true → p y x = q y x) :
    count_cells cfg p = count_cells cfg q := by
  rw [count_cells_eq_card, count_cells_eq_card]
  congr 1
  apply Finset.filter_congr
  intro c hc
  simp only [Finset.mem_product, Finset.mem_range] at hc
  have hb : in_bounds cfg (c.2 : Int) (c.1 : Int) = true := by
    rw [in_bounds_iff]
    omega
  rw [h _ _ hb]

theorem count_cells_le (cfg : Config) (p : Int → Int → Bool) :
    count_cells cfg p ≤ cfg.WIDTH * cfg.HEIGHT := by
  rw [count_cells_eq_card]
  calc _ ≤ (Finset.range cfg.HEIGHT ×ˢ Finset.range cfg.WIDTH).card := Finset.card_filter_le _ _
    _ = cfg.WIDTH * cfg.HEIGHT := by
      rw [Finset.card_product, Finset.card_range, Finset.card_range, Nat.mul_comm]

theorem count_cells_zero (cfg : Config) (p : Int → Int → Bool)
    (h : ∀ x y : Int, in_bounds cfg x y = true → p y x = false) :
    count_cells cfg p = 0 := by
  rw [count_cells_congr cfg p (fun _ _ => false) h, count_cells_eq_card]
  simp

/-- Changing the test at one in-bounds cell from true to false lowers the count by one. -/
theorem count_cells_update (cfg : Config) (p q : Int → Int → Bool) (x0 y0 : Int)
    (hb : in_bounds cfg x0 y0 = true) (hp : p y0 x0 = true) (hq : q y0 x0 = false)
    (h : ∀ x y : Int, ¬ (y = y0 ∧ x = x0) → q y x = p y x) :
    count_cells cfg p = count_cells cfg q + 1 := by
  rw [in_bounds_iff] at hb
  simp only [count_cells_eq_card]
  have hmem : (y0.toNat, x0.toNat) ∈ Finset.range cfg.HEIGHT ×ˢ Finset.range cfg.WIDTH := by
    simp only [Finset.mem_product, Finset.mem_range]
    omega
  have hins : (Finset.range cfg.HEIGHT ×ˢ Finset.range cfg.WIDTH).filter
        (fun c => p (c.1 : Int) (c.2 : Int) = true)
      = insert (y0.toNat, x0.toNat) ((Finset.range cfg.HEIGHT ×ˢ Finset.range cfg.WIDTH).filter
        (fun c => q (c.1 : Int) (c.2 : Int) = true)) := by
    ext c
    simp only [Finset.mem_filter, Finset.mem_insert]
    constructor
    · rintro ⟨hc, hpc⟩
      by_cases hcc : c = (y0.toNat, x0.toNat)
      · exact Or.inl hcc
      · right
        refine ⟨hc, ?_⟩
        rw [h]
        · exact hpc
        · rintro ⟨h1, h2⟩
          apply hcc
          ext
          · simp [← h1]
          · simp [← h2]
    · rintro (hc | ⟨hc, hqc⟩)
      · subst hc
        refine ⟨hmem, ?_⟩
        simpa [Int.toNat_of_nonneg hb.1, Int.toNat_of_nonneg hb.2.2.1] using hp
      · refine ⟨hc, ?_⟩
        by_cases hcc : ((c.1 : Int) = y0 ∧ (c.2 : Int) = x0)
        · rw [hcc.1, hcc.2, hq] at hqc
          exact Bool.noConfusion hqc
        · rw [← h _ _ hcc]
          exact hqc
  rw [hins, Finset.card_insert_of_not_mem]
  simp only [Finset.mem_filter, not_and]
  intro _
  simp [Int.toNat_of_nonneg hb.1, Int.toNat_of_nonneg hb.2.2.1, hq]

/-! ## Mine placement -/

theorem count_mines_set (cfg : Config) (b : Grid) (x y : Int)
    (hb : in_bounds cfg x y = true) (hm : b y x ≠ MINE) :
    count_mines cfg (b.set y x MINE) = count_mines cfg b + 1 := by
  unfold count_mines
  apply count_cells_update cfg _ _ x y hb
  · simp [Grid.set_same]
  · simp [hm]
  · intro x' y' h
    simp [Grid.set_other _ _ _ _ _ _ h]

/-- What the placement loop does: a cell keeps its value, or it was not a mine and
has become one, at a drawn coordinate other than the safe one; and when the
counter `mines_placed` equals the number of mines on entry, the board holds
`MINES` mines on exit. -/
theorem place_mines_loop_spec (cfg : Config) (safe_x safe_y : Int) :
    ∀ (n : Nat) (rs : List Nat), rs.length ≤ n →
      ∀ (placed : Nat) (b : Grid) (res : Grid × List Nat),
      place_mines_loop cfg safe_x safe_y rs placed b = some res →
      (∀ x y : Int, res.1 y x = b y x ∨
        (b y x ≠ MINE ∧ res.1 y x = MINE ∧ ¬ (x = safe_x ∧ y = safe_y) ∧
          ∃ rx ry : Nat, x = ((rx % cfg.WIDTH : Nat) : Int) ∧
            y = ((ry % cfg.HEIGHT : Nat) : Int))) ∧
      (0 < cfg.WIDTH → 0 < cfg.HEIGHT → placed ≤ cfg.MINES → count_mines cfg b = placed →
        count_mines cfg res.1 = cfg.MINES) := by
  intro n
  induction n with
  | zero =>
    intro rs hlen placed b res h
    have hrs : rs = [] := List.length_eq_zero.1 (Nat.le_zero.1 hlen)
    subst hrs
    unfold place_mines_loop at h
    split_ifs at h with hlt
    cases h
    exact ⟨fun _ _ => Or.inl rfl, fun _ _ hle hc => by show count_mines cfg b = cfg.MINES; omega⟩
  | succ n ih =>
    intro rs hlen placed b res h
    match rs, hlen, h with
    | [], _, h =>
      unfold place_mines_loop at h
      split_ifs at h with hlt
      cases h
      exact ⟨fun _ _ => Or.inl rfl, fun _ _ hle hc => by show count_mines cfg b = cfg.MINES; omega⟩
    | [r], _, h =>
      unfold place_mines_loop at h
      split_ifs at h with hlt
      cases h
      exact ⟨fun _ _ => Or.inl rfl, fun _ _ hle hc => by show count_mines cfg b = cfg.MINES; omega⟩
    | rx :: ry :: rest, hlen, h =>
      have hlen' : rest.length ≤ n := by
        simp only [List.length_cons] at hlen
        omega
      unfold place_mines_loop at h
      dsimp only at h
      split_ifs at h with hlt hskip
      · exact ih rest hlen' placed b res h
      · obtain ⟨hcells, hcount⟩ := ih rest hlen' _ _ res h
        have hxy : ¬ (((rx % cfg.WIDTH : Nat) : Int) = safe_x ∧
            ((ry % cfg.HEIGHT : Nat) : Int) = safe_y) := fun hc => hskip (Or.inl hc)
        have hnm : b ((ry % cfg.HEIGHT : Nat) : Int) ((rx % cfg.WIDTH : Nat) : Int) ≠ MINE :=
          fun hc => hskip (Or.inr hc)
        refine ⟨?_, ?_⟩
        · intro x y
          by_cases hc : y = ((ry % cfg.HEIGHT : Nat) : Int) ∧ x = ((rx % cfg.WIDTH : Nat) : Int)
          · obtain ⟨rfl, rfl⟩ := hc
            right
            refine ⟨hnm, ?_, hxy, rx, ry, rfl, rfl⟩
            rcases hcells _ _ with h1 | h1
            · rw [h1, Grid.set_same]
            · exact h1.2.1
          · rcases hcells x y with h1 | h1
            · left
              rw [h1, Grid.set_other _ _ _ _ _ _ hc]
            · right
              rw [Grid.set_other _ _ _ _ _ _ hc] at h1
              exact h1
        · intro hW hH hle hc
          apply hcount hW hH (by omega)
          rw [count_mines_set, hc]
          · rw [in_bounds_iff]
            have := Nat.mod_lt rx hW
            have := Nat.mod_lt ry hH
            omega
          · exact hnm
      · cases h
        exact ⟨fun _ _ => Or.inl rfl, fun _ _ hle hc => by show count_mines cfg b = cfg.MINES; omega⟩

theorem some_get_eq {α : Type} {o : Option α} (h : o.isSome = true) : o = some (o.get h) :=
  (Option.some_get h).symm

/-- C2: started on the mine-free board of a fresh game, `place_mines(safe_x, safe_y)`,
when it completes, leaves exactly `MINES` cells of the board marked as mines;
the only cells it changes are in-bounds cells other than the safe one, which
become mines; every other cell of the board is still empty (`HIDDEN`). -/
theorem place_mines_fresh (cfg : Config) (hW : 0 < cfg.WIDTH) (hH : 0 < cfg.HEIGHT)
    (g0 : Game) (safe_x safe_y : Int) (res : Grid × List Nat)
    (h : place_mines cfg (init_game cfg g0).rand (init_game cfg g0).board safe_x safe_y
      = some res) :
    count_mines cfg res.1 = cfg.MINES ∧
    (∀ x y : Int, res.1 y x ≠ (init_game cfg g0).board y x →
      in_bounds cfg x y = true ∧ res.1 y x = MINE ∧ ¬ (x = safe_x ∧ y = safe_y)) ∧
    (∀ x y : Int, in_bounds cfg x y = true → res.1 y x = MINE ∨ res.1 y x = HIDDEN) ∧
    (∀ x y : Int, in_bounds cfg x y = true → res.1 y x = MINE → ¬ (x = safe_x ∧ y = safe_y)) := by
  have hfresh : ∀ x y : Int, in_bounds cfg x y = true → (init_game cfg g0).board y x = HIDDEN := by
    intro x y hb
    simp [init_game, hb]
  have hHM : HIDDEN ≠ MINE := by decide
  obtain ⟨hcells, hcount⟩ := place_mines_loop_spec cfg safe_x safe_y _ _ (le_refl _) _ _ _ h
  have hch : ∀ x y : Int, res.1 y x ≠ (init_game cfg g0).board y x →
      in_bounds cfg x y = true ∧ res.1 y x = MINE ∧ ¬ (x = safe_x ∧ y = safe_y) := by
    intro x y hne
    rcases hcells x y with h1 | ⟨_, h2, h3, rx, ry, hx, hy⟩
    · exact absurd h1 hne
    · refine ⟨?_, h2, h3⟩
      rw [in_bounds_iff]
      have := Nat.mod_lt rx hW
      have := Nat.mod_lt ry hH
      omega
  refine ⟨?_, hch, ?_, ?_⟩
  · apply hcount hW hH (Nat.zero_le _)
    apply count_cells_zero
    intro x y hb
    simp [hfresh x y hb, hHM]
  · intro x y hb
    by_cases hne : res.1 y x = (init_game cfg g0).board y x
    · right
      rw [hne, hfresh x y hb]
    · exact Or.inl (hch x y hne).2.1
  · intro x y hb hm
    apply (hch x y _).2.2
    rw [hm, hfresh x y hb]
    exact hHM.symm

theorem place_mines_fresh_witness :
    0 < cfg33.WIDTH ∧ 0 < cfg33.HEIGHT ∧
    ∃ res, place_mines cfg33 fresh33.rand fresh33.board 2 2 = some res ∧
      count_mines cfg33 res.1 = cfg33.MINES ∧ res.1 0 0 = MINE ∧ res.1 2 2 = HIDDEN :=
  ⟨by decide, by decide, (place_mines cfg33 fresh33.rand fresh33.board 2 2).get (by decide),
    some_get_eq _,
    (place_mines_fresh cfg33 (by decide) (by decide) { game33 with rand := [0, 0] } 2 2 _
      (some_get_eq (by decide))).1,
    by decide, by decide⟩

/-! ## The first-move block and the mine test of `reveal` -/

theorem reveal_of_hidden (cfg : Config) (fuel : Nat) (g : Game) (x y : Int)
    (hb : in_bounds cfg x y = true) (hh : g.display_board y x = HIDDEN) :
    reveal cfg fuel g x y =
      (place_on_first_move cfg g x y).bind fun g =>
        if g.board y x = MINE then
          some { g with game_over := true, display_board := g.display_board.set y x MINE }
        else
          (flood_fill cfg g.board (queue_size cfg) fuel g.display_board x y).result.map fun r =>
            { g with display_board := r.1 } := by
  unfold reveal
  rw [if_neg (not_guard_of_in_bounds hb), if_neg (not_not.2 hh)]

/-- The first-move block changes only the board, the random values and the flag,
and on the board it only turns cells other than the target into mines. -/
theorem place_on_first_move_spec (cfg : Config) (g g1 : Game) (x y : Int)
    (h : place_on_first_move cfg g x y = some g1) :
    g1.display_board = g.display_board ∧ g1.game_over = g.game_over ∧ g1.won = g.won ∧
      g1.first_move = false ∧
      (g.first_move = false → g1 = g) ∧
      (∀ x' y' : Int, g1.board y' x' = g.board y' x' ∨
        (g.board y' x' ≠ MINE ∧ g1.board y' x' = MINE ∧ ¬ (x' = x ∧ y' = y))) := by
  unfold place_on_first_move at h
  split_ifs at h with hf
  · cases hp : place_mines cfg g.rand g.board x y with
    | none => rw [hp] at h; cases h
    | some p =>
      rw [hp] at h
      simp only [Option.map_some', Option.some.injEq] at h
      subst h
      refine ⟨rfl, rfl, rfl, rfl, fun hc => ?_, ?_⟩
      · rw [hf] at hc
        cases hc
      · intro x' y'
        rcases (place_mines_loop_spec cfg x y _ _ (le_refl _) _ _ _ hp).1 x' y' with h1 | h1
        · exact Or.inl h1
        · exact Or.inr ⟨h1.1, h1.2.1, h1.2.2.1⟩
  · cases h
    have hf' : g.first_move = false := by simpa using hf
    exact ⟨rfl, rfl, rfl, hf', fun _ => rfl, fun _ _ => Or.inl rfl⟩

theorem place_on_first_move_isSome (cfg : Config) (g : Game) (x y : Int)
    (hp : g.first_move = true → (place_mines cfg g.rand g.board x y).isSome = true) :
    ∃ g1, place_on_first_move cfg g x y = some g1 := by
  unfold place_on_first_move
  split_ifs with hf
  · obtain ⟨p, hp'⟩ := Option.isSome_iff_exists.1 (hp hf)
    rw [hp']
    exact ⟨_, rfl⟩
  · exact ⟨_, rfl⟩

/-- C5: in a game in progress (`game_over = 0`, `won = 0`), `reveal` on an in-bounds
`HIDDEN` cell that holds a mine returns, stores the mine character (the
exploded mine) in the display at that cell, sets `game_over` and leaves `won`
clear, so the status is `Lost`, and changes the display of no other cell.  When
the first-move flag is still set the call first places mines, so it returns
only if that placement completes. -/
theorem reveal_mine_loses (cfg : Config) (fuel : Nat) (g : Game) (x y : Int)
    (hb : in_bounds cfg x y = true)
    (hh : g.display_board y x = HIDDEN)
    (hm : g.board y x = MINE)
    (_hgo : g.game_over = false) (hw : g.won = false)
    (hp : g.first_move = true → (place_mines cfg g.rand g.board x y).isSome = true) :
    ∃ g', reveal cfg fuel g x y = some g' ∧
      g'.display_board y x = MINE ∧
      g'.game_over = true ∧ g'.won = false ∧ status g' = Status.Lost ∧
      ∀ x' y' : Int, ¬ (y' = y ∧ x' = x) → g'.display_board y' x' = g.display_board y' x' := by
  obtain ⟨g1, hg1⟩ := place_on_first_move_isSome cfg g x y hp
  obtain ⟨hd, _, hw1, _, _, hcells⟩ := place_on_first_move_spec cfg g g1 x y hg1
  have hm1 : g1.board y x = MINE := by
    rcases hcells x y with h1 | h1
    · rw [h1, hm]
    · exact h1.2.1
  rw [reveal_of_hidden cfg fuel g x y hb hh, hg1]
  simp only [Option.some_bind, hm1, if_true]
  refine ⟨_, rfl, ?_, rfl, ?_, ?_, ?_⟩
  · simp [Grid.set_same]
  · simp [hw1, hw]
  · simp [status, hw1, hw]
  · intro x' y' hne
    simp [Grid.set_other _ _ _ _ _ _ hne, hd]

theorem reveal_mine_loses_witness :
    ∃ g', reveal cfg33 0 game33 0 0 = some g' ∧
      g'.display_board 0 0 = MINE ∧
      g'.game_over = true ∧ g'.won = false ∧ status g' = Status.Lost ∧
      ∀ x' y' : Int, ¬ (y' = 0 ∧ x' = 0) → g'.display_board y' x' = game33.display_board y' x' :=
  reveal_mine_loses cfg33 0 game33 0 0 (by decide) (by decide) (by decide) rfl rfl
    (fun h => Bool.noConfusion h)
/-! ## The flood fill -/

theorem enqueued_neighbours_mem (cfg : Config) (board d : Grid) (cx cy : Int) (p : Int × Int)
    (h : p ∈ enqueued_neighbours cfg board d cx cy) :
    in_bounds cfg p.1 p.2 = true ∧ d p.2 p.1 = HIDDEN ∧ board p.2 p.1 ≠ MINE := by
  unfold enqueued_neighbours at h
  rw [List.mem_flatMap] at h
  obtain ⟨dy, _, h⟩ := h
  rw [List.mem_filterMap] at h
  obtain ⟨dx, _, h⟩ := h
  split_ifs at h with h0 hc
  cases h
  simp only [Bool.and_eq_true, decide_eq_true_eq] at hc
  exact ⟨hc.1.1, hc.1.2, hc.2⟩

theorem deltas_filterMap_length (f : Int → Int → Option (Int × Int)) (h : f 0 0 = none) :
    (deltas.flatMap fun dy => deltas.filterMap fun dx => f dx dy).length ≤ 8 := by
  have h1 : ∀ k : Int → Option (Int × Int), (List.filterMap k [-1, 0, 1]).length ≤ 3 :=
    fun k => List.length_filterMap_le k _
  have h2 : (List.filterMap (fun dx => f dx 0) [-1, 0, 1]).length ≤ 2 := by
    have : List.filterMap (fun dx => f dx 0) [-1, 0, 1]
        = List.filterMap (fun dx => f dx 0) [-1, 1] := by
      simp [List.filterMap_cons, h]
    rw [this]
    exact List.length_filterMap_le _ _
  have ha := h1 (fun dx => f dx (-1))
  have hc := h1 (fun dx => f dx 1)
  simp only [deltas, List.flatMap_cons, List.flatMap_nil, List.append_nil, List.length_append]
  omega

theorem enqueued_neighbours_length (cfg : Config) (board d : Grid) (cx cy : Int) :
    (enqueued_neighbours cfg board d cx cy).length ≤ 8 := by
  unfold enqueued_neighbours
  exact deltas_filterMap_length
    (fun dx dy => if dx = 0 ∧ dy = 0 then none
      else if in_bounds cfg (cx + dx) (cy + dy)
          && decide (d (cy + dy) (cx + dx) = HIDDEN)
          && decide (board (cy + dy) (cx + dx) ≠ MINE)
        then some (cx + dx, cy + dy) else none) (by simp)

theorem count_adjacent_mines_le (cfg : Config) (board : Grid) (x y : Int) :
    count_adjacent_mines cfg board x y ≤ 9 := by
  have hle : ∀ b : Bool, (if b = true then 1 else 0 : Nat) ≤ 1 := by
    intro b
    cases b <;> simp
  simp only [count_adjacent_mines, deltas, List.map_cons, List.map_nil, List.sum_cons,
    List.sum_nil]
  have h1 := hle (in_bounds cfg (x + -1) (y + -1) && decide (board (y + -1) (x + -1) = MINE))
  have h2 := hle (in_bounds cfg (x + 0) (y + -1) && decide (board (y + -1) (x + 0) = MINE))
  have h3 := hle (in_bounds cfg (x + 1) (y + -1) && decide (board (y + -1) (x + 1) = MINE))
  have h4 := hle (in_bounds cfg (x + -1) (y + 0) && decide (board (y + 0) (x + -1) = MINE))
  have h5 := hle (in_bounds cfg (x + 0) (y + 0) && decide (board (y + 0) (x + 0) = MINE))
  have h6 := hle (in_bounds cfg (x + 1) (y + 0) && decide (board (y + 0) (x + 1) = MINE))
  have h7 := hle (in_bounds cfg (x + -1) (y + 1) && decide (board (y + 1) (x + -1) = MINE))
  have h8 := hle (in_bounds cfg (x + 0) (y + 1) && decide (board (y + 1) (x + 0) = MINE))
  have h9 := hle (in_bounds cfg (x + 1) (y + 1) && decide (board (y + 1) (x + 1) = MINE))
  omega

/-- The centre cell is part of the count; when it holds no mine the count is that
of the eight neighbours and is at most 8. -/
theorem count_adjacent_mines_le_eight (cfg : Config) (board : Grid) (x y : Int)
    (h : board y x ≠ MINE) : count_adjacent_mines cfg board x y ≤ 8 := by
  have hle : ∀ b : Bool, (if b = true then 1 else 0 : Nat) ≤ 1 := by
    intro b
    cases b <;> simp
  simp only [count_adjacent_mines, deltas, List.map_cons, List.map_nil, List.sum_cons,
    List.sum_nil]
  have h1 := hle (in_bounds cfg (x + -1) (y + -1) && decide (board (y + -1) (x + -1) = MINE))
  have h2 := hle (in_bounds cfg (x + 0) (y + -1) && decide (board (y + -1) (x + 0) = MINE))
  have h3 := hle (in_bounds cfg (x + 1) (y + -1) && decide (board (y + -1) (x + 1) = MINE))
  have h4 := hle (in_bounds cfg (x + -1) (y + 0) && decide (board (y + 0) (x + -1) = MINE))
  have h5 : (if (in_bounds cfg (x + 0) (y + 0) && decide (board (y + 0) (x + 0) = MINE)) = true
      then 1 else 0 : Nat) = 0 := by
    simp [h]
  have h6 := hle (in_bounds cfg (x + 1) (y + 0) && decide (board (y + 0) (x + 1) = MINE))
  have h7 := hle (in_bounds cfg (x + -1) (y + 1) && decide (board (y + 1) (x + -1) = MINE))
  have h8 := hle (in_bounds cfg (x + 0) (y + 1) && decide (board (y + 1) (x + 0) = MINE))
  have h9 := hle (in_bounds cfg (x + 1) (y + 1) && decide (board (y + 1) (x + 1) = MINE))
  omega

theorem revealed_char_ne (n : Nat) (h : n ≤ 9) :
    revealed_char n ≠ HIDDEN ∧ revealed_char n ≠ FLAGGED ∧ revealed_char n ≠ MINE := by
  have : ∀ k : Nat, k < 10 →
      revealed_char k ≠ HIDDEN ∧ revealed_char k ≠ FLAGGED ∧ revealed_char k ≠ MINE := by
    decide
  exact this n (by omega)

theorem is_revealed_revealed_char (n : Nat) (h : n ≤ 8) : is_revealed (revealed_char n) = true := by
  have : ∀ k : Nat, k < 9 → is_revealed (revealed_char k) = true := by decide
  exact this n (by omega)

theorem reveals_refl (cfg : Config) (board d : Grid) : reveals cfg board d d :=
  fun _ _ => Or.inl rfl

theorem reveals_trans (cfg : Config) (board d0 d1 d2 : Grid)
    (h01 : reveals cfg board d0 d1) (h12 : reveals cfg board d1 d2) :
    reveals cfg board d0 d2 := by
  intro x y
  rcases h12 x y with h | ⟨hh, hb, hm, hc⟩
  · rw [h]
    exact h01 x y
  · rcases h01 x y with h | ⟨hh0, _, _, _⟩
    · exact Or.inr ⟨h ▸ hh, hb, hm, hc⟩
    · exact Or.inr ⟨hh0, hb, hm, hc⟩

theorem reveals_of_not_hidden (cfg : Config) (board d0 d : Grid) (h : reveals cfg board d0 d)
    (x y : Int) (hn : d0 y x ≠ HIDDEN) : d y x = d0 y x := by
  rcases h x y with h | h
  · exact h
  · exact absurd h.1 hn

/-- The two ways an iteration of the flood fill gives a result: the front cell is
not hidden and nothing changes, or it is hidden, gets its count, and (when the
count is 0) its neighbours are appended within the capacity of the array. -/
theorem reveal_step_some (cfg : Config) (board : Grid) (cap : Nat) (d : Grid) (cx cy : Int)
    (q : List (Int × Int)) (rear : Nat) (s : Grid × List (Int × Int) × Nat)
    (h : reveal_step cfg board cap d cx cy q rear = some s) :
    (d cy cx ≠ HIDDEN ∧ s = (d, q, rear)) ∨
    (d cy cx = HIDDEN ∧
      s.1 = d.set cy cx (revealed_char (count_adjacent_mines cfg board cx cy)) ∧
      s.2.1 = q ++ (if count_adjacent_mines cfg board cx cy = 0 then
          enqueued_neighbours cfg board
            (d.set cy cx (revealed_char (count_adjacent_mines cfg board cx cy))) cx cy
        else []) ∧
      s.2.2 = rear + 2 * (if count_adjacent_mines cfg board cx cy = 0 then
          enqueued_neighbours cfg board
            (d.set cy cx (revealed_char (count_adjacent_mines cfg board cx cy))) cx cy
        else []).length ∧
      (rear ≤ cap → s.2.2 ≤ cap)) := by
  unfold reveal_step at h
  by_cases hh : d cy cx ≠ HIDDEN
  · rw [if_pos hh] at h
    cases h
    exact Or.inl ⟨hh, rfl⟩
  · rw [if_neg hh] at h
    dsimp only at h
    right
    refine ⟨not_not.1 hh, ?_⟩
    split_ifs at h with h0 hc
    · cases h
      rw [if_pos h0]
      exact ⟨rfl, rfl, rfl, fun _ => hc⟩
    · cases h
      rw [if_neg h0]
      exact ⟨rfl, (List.append_nil q).symm, rfl, fun hr => hr⟩

/-- An iteration of the flood fill has no result exactly when the front cell is
hidden with count 0 and its neighbours do not fit into the array. -/
theorem reveal_step_none (cfg : Config) (board : Grid) (cap : Nat) (d : Grid) (cx cy : Int)
    (q : List (Int × Int)) (rear : Nat) :
    reveal_step cfg board cap d cx cy q rear = none ↔
      (d cy cx = HIDDEN ∧ count_adjacent_mines cfg board cx cy = 0 ∧
        cap < rear + 2 * (enqueued_neighbours cfg board
          (d.set cy cx (revealed_char (count_adjacent_mines cfg board cx cy))) cx cy).length) := by
  unfold reveal_step
  by_cases hh : d cy cx ≠ HIDDEN
  · rw [if_pos hh]
    constructor
    · intro h
      cases h
    · intro h
      exact absurd h.1 hh
  · rw [if_neg hh]
    dsimp only
    split_ifs with h0 hc
    · constructor
      · intro h
        cases h
      · intro h
        omega
    · constructor
      · intro _
        exact ⟨not_not.1 hh, h0, by omega⟩
      · intro _
        rfl
    · constructor
      · intro h
        cases h
      · intro h
        exact absurd h.2.1 h0

/-- One iteration of the flood fill on a queue of in-bounds cells, whatever the
board holds: the queue stays in bounds, the measure
`9 * hidden cells + queue length` goes down, `rear` does not go down and stays
within the capacity, and each hidden cell that is left accounts for room for 8
more pairs. -/
theorem reveal_step_measure (cfg : Config) (board : Grid) (cap : Nat) (d : Grid) (cx cy : Int)
    (q : List (Int × Int)) (rear : Nat) (s : Grid × List (Int × Int) × Nat)
    (hq : ∀ p ∈ (cx, cy) :: q, in_bounds cfg p.1 p.2 = true)
    (hs : reveal_step cfg board cap d cx cy q rear = some s) :
    (∀ p ∈ s.2.1, in_bounds cfg p.1 p.2 = true) ∧
    9 * count_hidden cfg s.1 + s.2.1.length + 1 ≤ 9 * count_hidden cfg d + (q.length + 1) ∧
    rear ≤ s.2.2 ∧ (rear ≤ cap → s.2.2 ≤ cap) ∧
    s.2.2 + 16 * count_hidden cfg s.1 ≤ rear + 16 * count_hidden cfg d := by
  have hc := hq (cx, cy) (List.mem_cons_self _ _)
  have hq' : ∀ p ∈ q, in_bounds cfg p.1 p.2 = true := fun p hp => hq p (List.mem_cons_of_mem _ hp)
  have hne := (revealed_char_ne _ (count_adjacent_mines_le cfg board cx cy)).1
  rcases reveal_step_some cfg board cap d cx cy q rear s hs with ⟨_, rfl⟩ | ⟨hh, h1, h2, h3, h4⟩
  · exact ⟨hq', le_refl _, le_refl _, fun h => h, le_refl _⟩
  · have hcount : count_hidden cfg d = count_hidden cfg s.1 + 1 := by
      rw [h1]
      unfold count_hidden
      apply count_cells_update cfg _ _ cx cy hc
      · simp [hh]
      · simp [Grid.set_same, hne]
      · intro x y hxy
        simp [Grid.set_other _ _ _ _ _ _ hxy]
    have hlen : (if count_adjacent_mines cfg board cx cy = 0 then
          enqueued_neighbours cfg board
            (d.set cy cx (revealed_char (count_adjacent_mines cfg board cx cy))) cx cy
        else []).length ≤ 8 := by
      split_ifs
      · exact enqueued_neighbours_length cfg board _ cx cy
      · simp
    refine ⟨?_, ?_, ?_, h4, ?_⟩
    · intro p hp
      rw [h2] at hp
      rcases List.mem_append.1 hp with hp | hp
      · exact hq' p hp
      · split_ifs at hp
        · exact (enqueued_neighbours_mem cfg board _ cx cy p hp).1
        · exact absurd hp (List.not_mem_nil p)
    · rw [h2, List.length_append]
      omega
    · omega
    · omega

/-- One iteration of the flood fill on a well-formed queue: the queue stays
well formed, the display only gains revealed cells, and a hidden front cell is
revealed. -/
theorem reveal_step_spec (cfg : Config) (board : Grid) (cap : Nat) (d : Grid) (cx cy : Int)
    (q : List (Int × Int)) (rear : Nat) (s : Grid × List (Int × Int) × Nat)
    (hq : queue_ok cfg board ((cx, cy) :: q))
    (hs : reveal_step cfg board cap d cx cy q rear = some s) :
    queue_ok cfg board s.2.1 ∧
    reveals cfg board d s.1 ∧
    s.1 cy cx ≠ HIDDEN ∧
    (∀ p, p ∈ q → p ∈ s.2.1) := by
  have hc := hq (cx, cy) (List.mem_cons_self _ _)
  have hq' : queue_ok cfg board q := fun p hp => hq p (List.mem_cons_of_mem _ hp)
  have hne := (revealed_char_ne _ (count_adjacent_mines_le cfg board cx cy)).1
  rcases reveal_step_some cfg board cap d cx cy q rear s hs with ⟨hh, rfl⟩ | ⟨hh, h1, h2, _, _⟩
  · exact ⟨hq', reveals_refl cfg board d, hh, fun p hp => hp⟩
  · refine ⟨?_, ?_, ?_, ?_⟩
    · intro p hp
      rw [h2] at hp
      rcases List.mem_append.1 hp with hp | hp
      · exact hq' p hp
      · split_ifs at hp
        · have := enqueued_neighbours_mem cfg board _ cx cy p hp
          exact ⟨this.1, this.2.2⟩
        · exact absurd hp (List.not_mem_nil p)
    · rw [h1]
      intro x y
      by_cases hxy : y = cy ∧ x = cx
      · obtain ⟨rfl, rfl⟩ := hxy
        exact Or.inr ⟨hh, hc.1, hc.2, Grid.set_same _ _ _ _⟩
      · exact Or.inl (Grid.set_other _ _ _ _ _ _ hxy)
    · rw [h1, Grid.set_same]
      exact hne
    · intro p hp
      rw [h2]
      exact List.mem_append_left _ hp

theorem fill_result_some (f : Fill) (res : Grid × Nat) (h : f.result = some res) :
    f = Fill.done res.1 res.2 := by
  cases f with
  | done d r =>
    simp only [Fill.result, Option.some.injEq] at h
    subst h
    rfl
  | overflow => cases h
  | out_of_fuel => cases h

theorem queue_size_ge_two (cfg : Config) (x y : Int) (hb : in_bounds cfg x y = true) :
    2 ≤ queue_size cfg := by
  rw [in_bounds_iff] at hb
  unfold queue_size
  have hW : 1 ≤ cfg.WIDTH := by omega
  have hH : 1 ≤ cfg.HEIGHT := by omega
  have := Nat.mul_le_mul hW hH
  omega

theorem flood_fill_done (cfg : Config) (board : Grid) (cap fuel : Nat) (d : Grid) (x y : Int)
    (res : Grid × Nat) (h : (flood_fill cfg board cap fuel d x y).result = some res) :
    2 ≤ cap ∧ reveal_loop cfg board cap fuel d [(x, y)] 2 = Fill.done res.1 res.2 := by
  unfold flood_fill at h
  split_ifs at h with hc
  · exact ⟨hc, fill_result_some _ res h⟩
  · cases h

/-- Whenever the flood-fill loop ends, the display it gives comes from the one it
started with by revealing cells, and no cell that was in the queue is still
`HIDDEN`. -/
theorem reveal_loop_sound (cfg : Config) (board : Grid) (cap : Nat) :
    ∀ (fuel : Nat) (d : Grid) (q : List (Int × Int)) (rear : Nat) (res : Grid × Nat),
      queue_ok cfg board q → reveal_loop cfg board cap fuel d q rear = Fill.done res.1 res.2 →
      reveals cfg board d res.1 ∧ ∀ p ∈ q, res.1 p.2 p.1 ≠ HIDDEN := by
  intro fuel
  induction fuel with
  | zero =>
    intro d q rear res hq h
    cases q with
    | nil =>
      simp only [reveal_loop, Fill.done.injEq] at h
      rw [← h.1]
      exact ⟨reveals_refl cfg board d, fun p hp => absurd hp (List.not_mem_nil p)⟩
    | cons c q => simp [reveal_loop] at h
  | succ fuel ih =>
    intro d q rear res hq h
    match q, hq, h with
    | [], _, h =>
      simp only [reveal_loop, Fill.done.injEq] at h
      rw [← h.1]
      exact ⟨reveals_refl cfg board d, fun p hp => absurd hp (List.not_mem_nil p)⟩
    | (cx, cy) :: q, hq, h =>
      simp only [reveal_loop] at h
      cases hs : reveal_step cfg board cap d cx cy q rear with
      | none =>
        rw [hs] at h
        cases h
      | some s =>
        rw [hs] at h
        obtain ⟨hq1, hr1, hn1, hsub⟩ := reveal_step_spec cfg board cap d cx cy q rear s hq hs
        obtain ⟨hr2, hn2⟩ := ih _ _ _ res hq1 h
        refine ⟨reveals_trans cfg board _ _ _ hr1 hr2, ?_⟩
        intro p hp
        rcases List.mem_cons.1 hp with hp | hp
        · subst hp
          rw [reveals_of_not_hidden cfg board _ _ hr2 cx cy hn1]
          exact hn1
        · exact hn2 p (hsub p hp)

/-- The flood-fill loop, started on a queue of in-bounds cells with the writes so
far inside the array, does not run out of fuel when it has
`9 * hidden cells + queue length` iterations: it ends, or it stops at a write
outside the array.  When it ends, `rear` is within the capacity. -/
theorem reveal_loop_within_fuel (cfg : Config) (board : Grid) (cap : Nat) :
    ∀ (fuel : Nat) (d : Grid) (q : List (Int × Int)) (rear : Nat),
      (∀ p ∈ q, in_bounds cfg p.1 p.2 = true) → 9 * count_hidden cfg d + q.length ≤ fuel →
      reveal_loop cfg board cap fuel d q rear ≠ Fill.out_of_fuel := by
  intro fuel
  induction fuel with
  | zero =>
    intro d q rear hq hf
    cases q with
    | nil => simp [reveal_loop]
    | cons c q =>
      simp only [List.length_cons] at hf
      omega
  | succ fuel ih =>
    intro d q rear hq hf
    match q, hq, hf with
    | [], _, _ => simp [reveal_loop]
    | (cx, cy) :: q, hq, hf =>
      simp only [reveal_loop]
      cases hs : reveal_step cfg board cap d cx cy q rear with
      | none =>
        intro h
        cases h
      | some s =>
        obtain ⟨hq1, hm, _⟩ := reveal_step_measure cfg board cap d cx cy q rear s hq hs
        apply ih _ _ _ hq1
        simp only [List.length_cons] at hf
        omega

/-- When the flood-fill loop ends, the final `rear` is not below the one it started
with, and it is within the capacity if the starting one was. -/
theorem reveal_loop_rear (cfg : Config) (board : Grid) (cap : Nat) :
    ∀ (fuel : Nat) (d : Grid) (q : List (Int × Int)) (rear : Nat) (res : Grid × Nat),
      (∀ p ∈ q, in_bounds cfg p.1 p.2 = true) →
      reveal_loop cfg board cap fuel d q rear = Fill.done res.1 res.2 →
      rear ≤ res.2 ∧ (rear ≤ cap → res.2 ≤ cap) := by
  intro fuel
  induction fuel with
  | zero =>
    intro d q rear res hq h
    cases q with
    | nil =>
      simp only [reveal_loop, Fill.done.injEq] at h
      rw [← h.2]
      exact ⟨le_refl _, fun h => h⟩
    | cons c q => simp [reveal_loop] at h
  | succ fuel ih =>
    intro d q rear res hq h
    match q, hq, h with
    | [], _, h =>
      simp only [reveal_loop, Fill.done.injEq] at h
      rw [← h.2]
      exact ⟨le_refl _, fun h => h⟩
    | (cx, cy) :: q, hq, h =>
      simp only [reveal_loop] at h
      cases hs : reveal_step cfg board cap d cx cy q rear with
      | none =>
        rw [hs] at h
        cases h
      | some s =>
        rw [hs] at h
        obtain ⟨hq1, _, h1, h2, _⟩ := reveal_step_measure cfg board cap d cx cy q rear s hq hs
        obtain ⟨h3, h4⟩ := ih _ _ _ res hq1 h
        exact ⟨le_trans h1 h3, fun hr => h4 (h2 hr)⟩

/-- With room for 8 pairs for every hidden cell, the flood-fill loop never writes
outside the array. -/
theorem reveal_loop_room (cfg : Config) (board : Grid) (cap : Nat) :
    ∀ (fuel : Nat) (d : Grid) (q : List (Int × Int)) (rear : Nat),
      (∀ p ∈ q, in_bounds cfg p.1 p.2 = true) → rear + 16 * count_hidden cfg d ≤ cap →
      reveal_loop cfg board cap fuel d q rear ≠ Fill.overflow := by
  intro fuel
  induction fuel with
  | zero =>
    intro d q rear hq hf
    cases q <;> simp [reveal_loop]
  | succ fuel ih =>
    intro d q rear hq hf
    match q, hq with
    | [], _ => simp [reveal_loop]
    | (cx, cy) :: q, hq =>
      simp only [reveal_loop]
      cases hs : reveal_step cfg board cap d cx cy q rear with
      | none =>
        exfalso
        obtain ⟨hh, h0, hlt⟩ := (reveal_step_none cfg board cap d cx cy q rear).1 hs
        have hlen := enqueued_neighbours_length cfg board
          (d.set cy cx (revealed_char (count_adjacent_mines cfg board cx cy))) cx cy
        have hpos : 1 ≤ count_hidden cfg d := by
          have hne := (revealed_char_ne _ (count_adjacent_mines_le cfg board cx cy)).1
          have : count_hidden cfg d = count_hidden cfg
              (d.set cy cx (revealed_char (count_adjacent_mines cfg board cx cy))) + 1 := by
            unfold count_hidden
            apply count_cells_update cfg _ _ cx cy (hq (cx, cy) (List.mem_cons_self _ _))
            · simp [hh]
            · simp [Grid.set_same, hne]
            · intro x y hxy
              simp [Grid.set_other _ _ _ _ _ _ hxy]
          omega
        omega
      | some s =>
        obtain ⟨hq1, _, _, _, hroom⟩ := reveal_step_measure cfg board cap d cx cy q rear s hq hs
        exact ih _ _ _ hq1 (by omega)

theorem count_hidden_le (cfg : Config) (d : Grid) : count_hidden cfg d ≤ cfg.WIDTH * cfg.HEIGHT :=
  count_cells_le cfg _

theorem queue_ok_singleton (cfg : Config) (board : Grid) (x y : Int)
    (hb : in_bounds cfg x y = true) (hm : board y x ≠ MINE) : queue_ok cfg board [(x, y)] := by
  intro p hp
  rw [List.mem_singleton] at hp
  subst hp
  exact ⟨hb, hm⟩

theorem in_bounds_singleton (cfg : Config) (x y : Int) (hb : in_bounds cfg x y = true) :
    ∀ p ∈ [(x, y)], in_bounds cfg p.1 p.2 = true := by
  intro p hp
  rw [List.mem_singleton] at hp
  subst hp
  exact hb

/-- The flood fill of `reveal`, started on an in-bounds cell with at least
`reveal_fuel` iterations, does not run out of fuel: it ends or it writes
outside the array. -/
theorem flood_fill_within_fuel (cfg : Config) (board : Grid) (cap fuel : Nat) (d : Grid)
    (x y : Int) (hb : in_bounds cfg x y = true) (hf : reveal_fuel cfg ≤ fuel) :
    flood_fill cfg board cap fuel d x y ≠ Fill.out_of_fuel := by
  unfold flood_fill
  split_ifs
  · apply reveal_loop_within_fuel cfg board cap fuel d _ 2 (in_bounds_singleton cfg x y hb)
    have := count_hidden_le cfg d
    unfold reveal_fuel at hf
    simp only [List.length_singleton]
    omega
  · intro h
    cases h

/-- With `queue_room` ints the flood fill of `reveal` never writes outside the array. -/
theorem flood_fill_room (cfg : Config) (board : Grid) (fuel : Nat) (d : Grid)
    (x y : Int) (hb : in_bounds cfg x y = true) :
    flood_fill cfg board (queue_room cfg) fuel d x y ≠ Fill.overflow := by
  have := count_hidden_le cfg d
  unfold flood_fill
  rw [if_pos (by unfold queue_room; omega)]
  apply reveal_loop_room cfg board _ fuel d _ 2 (in_bounds_singleton cfg x y hb)
  unfold queue_room
  omega

/-! ## The three ways `reveal` returns -/

/-- A call of `reveal` that returns either changed nothing (a guard fired), or hit
a mine, or ran the flood fill from an in-bounds hidden cell without a mine. -/
theorem reveal_cases (cfg : Config) (fuel : Nat) (g g' : Game) (x y : Int)
    (h : reveal cfg fuel g x y = some g') :
    ((in_bounds cfg x y = false ∨ g.display_board y x ≠ HIDDEN) ∧ g' = g) ∨
    (in_bounds cfg x y = true ∧ g.display_board y x = HIDDEN ∧
      ∃ g1, place_on_first_move cfg g x y = some g1 ∧
        ((g1.board y x = MINE ∧
            g' = { g1 with game_over := true,
                           display_board := g1.display_board.set y x MINE }) ∨
         (g1.board y x ≠ MINE ∧
            ∃ res : Grid × Nat,
              reveal_loop cfg g1.board (queue_size cfg) fuel g1.display_board [(x, y)] 2
                = Fill.done res.1 res.2 ∧
              g' = { g1 with display_board := res.1 }))) := by
  by_cases hb : in_bounds cfg x y = true
  · by_cases hh : g.display_board y x = HIDDEN
    · right
      refine ⟨hb, hh, ?_⟩
      rw [reveal_of_hidden cfg fuel g x y hb hh] at h
      cases hp : place_on_first_move cfg g x y with
      | none => rw [hp] at h; cases h
      | some g1 =>
        rw [hp, Option.some_bind] at h
        refine ⟨g1, rfl, ?_⟩
        split_ifs at h with hm
        · left
          cases h
          exact ⟨hm, rfl⟩
        · right
          cases hl : (flood_fill cfg g1.board (queue_size cfg) fuel g1.display_board x y).result
            with
          | none => rw [hl] at h; cases h
          | some res =>
            rw [hl] at h
            cases h
            exact ⟨hm, res, (flood_fill_done cfg g1.board _ fuel _ x y res hl).2, rfl⟩
    · left
      rw [reveal_guard_noop cfg fuel g x y (Or.inr hh)] at h
      cases h
      exact ⟨Or.inr hh, rfl⟩
  · left
    have hb' : in_bounds cfg x y = false := by simpa using hb
    rw [reveal_guard_noop cfg fuel g x y (Or.inl hb')] at h
    cases h
    exact ⟨Or.inl hb', rfl⟩

/-- A run of the flood-fill loop that did not run out of fuel comes out the same
with more fuel. -/
theorem reveal_loop_fuel (cfg : Config) (board : Grid) (cap : Nat) :
    ∀ (fuel : Nat) (d : Grid) (q : List (Int × Int)) (rear : Nat),
      reveal_loop cfg board cap fuel d q rear ≠ Fill.out_of_fuel →
      ∀ fuel' : Nat, fuel ≤ fuel' →
        reveal_loop cfg board cap fuel' d q rear = reveal_loop cfg board cap fuel d q rear := by
  intro fuel
  induction fuel with
  | zero =>
    intro d q rear h fuel' _
    cases q with
    | nil => cases fuel' <;> simp [reveal_loop]
    | cons c q => simp [reveal_loop] at h
  | succ fuel ih =>
    intro d q rear h fuel' hle
    obtain ⟨k, rfl⟩ : ∃ k, fuel' = k + 1 := ⟨fuel' - 1, by omega⟩
    match q, h with
    | [], _ => simp [reveal_loop]
    | (cx, cy) :: q, h =>
      simp only [reveal_loop] at h ⊢
      cases hs : reveal_step cfg board cap d cx cy q rear with
      | none => rfl
      | some s =>
        rw [hs] at h
        exact ih _ _ _ h k (by omega)

theorem flood_fill_fuel (cfg : Config) (board : Grid) (cap fuel fuel' : Nat) (d : Grid)
    (x y : Int) (h : flood_fill cfg board cap fuel d x y ≠ Fill.out_of_fuel)
    (hle : fuel ≤ fuel') :
    flood_fill cfg board cap fuel' d x y = flood_fill cfg board cap fuel d x y := by
  unfold flood_fill at h ⊢
  split_ifs at h ⊢ with hc
  · exact reveal_loop_fuel cfg board cap fuel d _ 2 h fuel' hle
  · rfl

theorem flood_fill_result_fuel (cfg : Config) (board : Grid) (cap fuel fuel' : Nat) (d : Grid)
    (x y : Int) (res : Grid × Nat)
    (h : (flood_fill cfg board cap fuel d x y).result = some res) (hle : fuel ≤ fuel') :
    (flood_fill cfg board cap fuel' d x y).result = some res := by
  rw [flood_fill_fuel cfg board cap fuel fuel' d x y _ hle]
  · exact h
  · intro hc
    rw [hc] at h
    cases h

theorem reveal_mono (cfg : Config) (fuel fuel' : Nat) (g g' : Game) (x y : Int)
    (h : reveal cfg fuel g x y = some g') (hle : fuel ≤ fuel') :
    reveal cfg fuel' g x y = some g' := by
  unfold reveal at h ⊢
  split_ifs at h ⊢ with h1 h2
  · exact h
  · exact h
  · cases hp : place_on_first_move cfg g x y with
    | none => rw [hp] at h; cases h
    | some g1 =>
      rw [hp] at h
      rw [Option.some_bind] at h ⊢
      split_ifs at h ⊢ with hm
      · exact h
      · cases hl : (flood_fill cfg g1.board (queue_size cfg) fuel g1.display_board x y).result
          with
        | none => rw [hl] at h; cases h
        | some res =>
          rw [hl] at h
          rw [flood_fill_result_fuel cfg g1.board _ fuel fuel' _ x y res hl hle]
          exact h

theorem reveal_rear_mono (cfg : Config) (fuel fuel' : Nat) (g : Game) (x y : Int) (n : Nat)
    (h : reveal_rear cfg fuel g x y = some n) (hle : fuel ≤ fuel') :
    reveal_rear cfg fuel' g x y = some n := by
  unfold reveal_rear at h ⊢
  split_ifs at h ⊢ with h1 h2
  · exact h
  · exact h
  · cases hp : place_on_first_move cfg g x y with
    | none => rw [hp] at h; cases h
    | some g1 =>
      rw [hp] at h
      rw [Option.some_bind] at h ⊢
      split_ifs at h ⊢ with hm
      · exact h
      · cases hl : (flood_fill cfg g1.board (queue_room cfg) fuel g1.display_board x y).result
          with
        | none => rw [hl] at h; cases h
        | some res =>
          rw [hl] at h
          rw [flood_fill_result_fuel cfg g1.board _ fuel fuel' _ x y res hl hle]
          exact h

theorem fill_is_overflow (f : Fill) (h : f.is_overflow = true) : f = Fill.overflow := by
  cases f with
  | done d r => cases h
  | overflow => rfl
  | out_of_fuel => cases h

/-- A flood fill that writes outside the array with some fuel never ends, whatever
the fuel. -/
theorem flood_fill_none_of_overflow (cfg : Config) (board : Grid) (cap fuel0 : Nat) (d : Grid)
    (x y : Int) (h : (flood_fill cfg board cap fuel0 d x y).is_overflow = true) :
    ∀ fuel : Nat, (flood_fill cfg board cap fuel d x y).result = none := by
  intro fuel
  have hov := fill_is_overflow _ h
  cases hl : (flood_fill cfg board cap fuel d x y).result with
  | none => rfl
  | some res =>
    exfalso
    rcases Nat.le_total fuel fuel0 with hle | hle
    · have := flood_fill_result_fuel cfg board cap fuel fuel0 d x y res hl hle
      rw [hov] at this
      cases this
    · have := flood_fill_fuel cfg board cap fuel0 fuel d x y
        (by rw [hov]; intro hc; cases hc) hle
      rw [hov] at this
      rw [this] at hl
      cases hl

/-- A call of `reveal` whose flood fill writes outside the array `queue` has no
result, whatever the fuel. -/
theorem reveal_none_of_overflows (cfg : Config) (fuel0 : Nat) (g : Game) (x y : Int)
    (h : reveal_overflows cfg fuel0 g x y = true) :
    ∀ fuel : Nat, reveal cfg fuel g x y = none := by
  intro fuel
  unfold reveal_overflows at h
  unfold reveal
  split_ifs at h ⊢ with h1 h2
  cases hp : place_on_first_move cfg g x y with
  | none => rfl
  | some g1 =>
    rw [hp] at h
    simp only at h
    rw [Option.some_bind]
    split_ifs at h ⊢ with hm
    rw [flood_fill_none_of_overflow cfg g1.board _ fuel0 _ x y h fuel]
    rfl

/-- A call of `reveal` with at least `reveal_fuel` iterations, whose mine
placement (if it is the first move) completes, returns a state or writes
outside the array `queue`. -/
theorem reveal_returns_or_overflows (cfg : Config) (fuel : Nat) (g : Game) (x y : Int)
    (hf : reveal_fuel cfg ≤ fuel)
    (hp : g.first_move = true → (place_mines cfg g.rand g.board x y).isSome = true) :
    (∃ g', reveal cfg fuel g x y = some g') ∨ reveal_overflows cfg fuel g x y = true := by
  unfold reveal reveal_overflows
  split_ifs with h1 h2
  · exact Or.inl ⟨g, rfl⟩
  · exact Or.inl ⟨g, rfl⟩
  · obtain ⟨g1, hg1⟩ := place_on_first_move_isSome cfg g x y hp
    rw [hg1, Option.some_bind]
    simp only
    split_ifs with hm
    · exact Or.inl ⟨_, rfl⟩
    · have hb := in_bounds_of_not_guard h1
      have hnf := flood_fill_within_fuel cfg g1.board (queue_size cfg) fuel g1.display_board
        x y hb hf
      cases hfl : flood_fill cfg g1.board (queue_size cfg) fuel g1.display_board x y with
      | done d r => exact Or.inl ⟨_, rfl⟩
      | overflow => exact Or.inr rfl
      | out_of_fuel => exact absurd hfl hnf

/-! ## The first move -/

/-- The first move on a fresh game, as far as the code goes: for every in-bounds
`(c, r)` and every random source on which the mine placement completes, a call
`reveal(c, r)` with `reveal_fuel` iterations either writes outside its array
`queue`, or returns with no mine at `(c, r)`, `game_over` clear, and `(c, r)`
shown as revealed with its count of adjacent mines. -/
theorem first_move_safe_unless_overflow (cfg : Config) (fuel : Nat) (g0 : Game) (c r : Int)
    (hb : in_bounds cfg c r = true)
    (hp : (place_mines cfg (init_game cfg g0).rand (init_game cfg g0).board c r).isSome = true)
    (hf : reveal_fuel cfg ≤ fuel) :
    reveal_overflows cfg fuel (init_game cfg g0) c r = true ∨
    ∃ g', reveal cfg fuel (init_game cfg g0) c r = some g' ∧
      g'.board r c ≠ MINE ∧ g'.game_over = false ∧ status g' ≠ Status.Lost ∧
      is_revealed (g'.display_board r c) = true ∧
      g'.display_board r c = revealed_char (count_adjacent_mines cfg g'.board c r) := by
  rcases reveal_returns_or_overflows cfg fuel (init_game cfg g0) c r hf (fun _ => hp) with
    ⟨g', hg'⟩ | hov
  · right
    refine ⟨g', hg', ?_⟩
    have hHM : HIDDEN ≠ MINE := by decide
    have hh : (init_game cfg g0).display_board r c = HIDDEN := by simp [init_game, hb]
    have hbd : (init_game cfg g0).board r c = HIDDEN := by simp [init_game, hb]
    rcases reveal_cases cfg fuel _ g' c r hg' with ⟨hs, _⟩ | ⟨_, _, g1, hg1, hc⟩
    · rcases hs with hs | hs
      · rw [hb] at hs
        cases hs
      · exact absurd hh hs
    · obtain ⟨hd, hgo, _, _, _, hcells⟩ := place_on_first_move_spec cfg _ g1 c r hg1
      have hm : g1.board r c ≠ MINE := by
        rcases hcells c r with h1 | h1
        · rw [h1, hbd]
          exact hHM
        · exact absurd ⟨rfl, rfl⟩ h1.2.2
      rcases hc with ⟨hmine, _⟩ | ⟨_, res, hres, rfl⟩
      · exact absurd hmine hm
      · obtain ⟨hr, hq⟩ := reveal_loop_sound cfg g1.board _ fuel _ _ _ res
          (queue_ok_singleton cfg g1.board c r hb hm) hres
        have hshown : res.1 r c = revealed_char (count_adjacent_mines cfg g1.board c r) := by
          rcases hr c r with h1 | h1
          · exact absurd h1 (by
              rw [hd, hh]
              exact hq (c, r) (List.mem_singleton.2 rfl))
          · exact h1.2.2.2
        have hgo' : g1.game_over = false := by simpa using hgo
        refine ⟨hm, hgo', ?_, ?_, hshown⟩
        · simp [status, hgo']
        · show is_revealed (res.1 r c) = true
          rw [hshown]
          exact is_revealed_revealed_char _ (count_adjacent_mines_le_eight cfg g1.board c r hm)
  · exact Or.inl hov

/-- C1, the code at failing inputs.  On a fresh 3 by 3 game whose random source puts
the mine at `(2,2)`, the first move `reveal(0, 0)` is in bounds and its mine
placement completes, but the flood fill needs 26 ints of queue and the array
has 18: the third iteration writes outside it, so the call has no defined
result, whatever the fuel.  The same happens in the default 9 by 9 game with
the mines on the top row and at `(0,1)` and the first move `reveal(8, 8)`: the
40th iteration writes outside the array of 162 ints. -/
theorem first_move_overflow_example :
    (in_bounds cfg33 0 0 = true ∧
      (place_mines cfg33 fresh33_22.rand fresh33_22.board 0 0).isSome = true ∧
      reveal_overflows cfg33 3 fresh33_22 0 0 = true ∧
      reveal_rear cfg33 13 fresh33_22 0 0 = some 26 ∧ queue_size cfg33 = 18 ∧
      ∀ fuel : Nat, reveal cfg33 fuel fresh33_22 0 0 = none) ∧
    (in_bounds Config.default 8 8 = true ∧
      (place_mines Config.default fresh99.rand fresh99.board 8 8).isSome = true ∧
      reveal_overflows Config.default 40 fresh99 8 8 = true ∧
      queue_size Config.default = 162 ∧
      ∀ fuel : Nat, reveal Config.default fuel fresh99 8 8 = none) := by
  have h3 : reveal_overflows cfg33 3 fresh33_22 0 0 = true := by decide
  have h9 : reveal_overflows Config.default 40 fresh99 8 8 = true := by
    set_option maxRecDepth 1000000 in decide
  exact ⟨⟨by decide, by decide, h3, by decide, by decide,
      reveal_none_of_overflows cfg33 3 fresh33_22 0 0 h3⟩,
    ⟨by decide, by decide, h9, by decide,
      reveal_none_of_overflows Config.default 40 fresh99 8 8 h9⟩⟩

/-- C6: on the 3 by 3 board with one mine, at `(0,0)`, and every cell hidden, one
call `reveal(2,2)` (with room for at least 9 iterations of the flood fill)
reveals the 8 other cells, with count 1 at `(1,0)`, `(0,1)`, `(1,1)` and count
0 at `(2,0)`, `(2,1)`, `(0,2)`, `(1,2)`, `(2,2)`; `(0,0)` stays `HIDDEN`; and the
next `game_continue` makes the status `Won`.  The call writes 9 coordinate
pairs into its queue (`rear` ends at 18, the size of the array).  The same
holds when the call is the first of a fresh game and the random source puts
the mine at `(0,0)`. -/
theorem zero_propagation_example (fuel : Nat) (hf : 9 ≤ fuel) :
    (∃ g', reveal cfg33 fuel game33 2 2 = some g' ∧
      display_rows cfg33 g' = rows33 ∧ count_revealed cfg33 g' = 8 ∧
      g'.display_board 0 0 = HIDDEN ∧ g'.board 0 0 = MINE ∧
      status (game_continue cfg33 g').1 = Status.Won) ∧
    reveal_rear cfg33 fuel game33 2 2 = some 18 ∧
    (∃ g', reveal cfg33 fuel fresh33 2 2 = some g' ∧
      display_rows cfg33 g' = rows33 ∧ count_revealed cfg33 g' = 8 ∧
      g'.display_board 0 0 = HIDDEN ∧ g'.board 0 0 = MINE ∧ count_mines cfg33 g'.board = 1 ∧
      status (game_continue cfg33 g').1 = Status.Won) :=
  ⟨⟨(reveal cfg33 9 game33 2 2).get (by decide),
      reveal_mono cfg33 9 fuel _ _ 2 2 (some_get_eq _) hf,
      by decide, by decide, by decide, by decide, by decide⟩,
   reveal_rear_mono cfg33 9 fuel game33 2 2 18 (by decide) hf,
   ⟨(reveal cfg33 9 fresh33 2 2).get (by decide),
      reveal_mono cfg33 9 fuel _ _ 2 2 (some_get_eq _) hf,
      by decide, by decide, by decide, by decide, by decide, by decide⟩⟩

theorem zero_propagation_example_witness :
    (∃ g', reveal cfg33 9 game33 2 2 = some g' ∧
      display_rows cfg33 g' = rows33 ∧ count_revealed cfg33 g' = 8 ∧
      g'.display_board 0 0 = HIDDEN ∧ g'.board 0 0 = MINE ∧
      status (game_continue cfg33 g').1 = Status.Won) ∧
    reveal_rear cfg33 9 game33 2 2 = some 18 ∧
    (∃ g', reveal cfg33 9 fresh33 2 2 = some g' ∧
      display_rows cfg33 g' = rows33 ∧ count_revealed cfg33 g' = 8 ∧
      g'.display_board 0 0 = HIDDEN ∧ g'.board 0 0 = MINE ∧ count_mines cfg33 g'.board = 1 ∧
      status (game_continue cfg33 g').1 = Status.Won) :=
  zero_propagation_example 9 (by decide)

/-! ## The queue a call needs -/

/-- An iteration that has a result in an array of `cap1` ints has the same result
in an array of `cap2` ints that holds the new `rear`. -/
theorem reveal_step_capacity (cfg : Config) (board : Grid) (cap1 cap2 : Nat) (d : Grid)
    (cx cy : Int) (q : List (Int × Int)) (rear : Nat) (s : Grid × List (Int × Int) × Nat)
    (h : reveal_step cfg board cap1 d cx cy q rear = some s) (hc : s.2.2 ≤ cap2) :
    reveal_step cfg board cap2 d cx cy q rear = some s := by
  unfold reveal_step at h ⊢
  by_cases hh : d cy cx ≠ HIDDEN
  · rw [if_pos hh] at h ⊢
    exact h
  · rw [if_neg hh] at h ⊢
    dsimp only at h ⊢
    split_ifs at h with h0 h1
    · cases h
      rw [if_pos h0, if_pos hc]
    · cases h
      rw [if_neg h0]

theorem reveal_step_rear_le (cfg : Config) (board : Grid) (cap : Nat) (d : Grid)
    (cx cy : Int) (q : List (Int × Int)) (rear : Nat) (s : Grid × List (Int × Int) × Nat)
    (h : reveal_step cfg board cap d cx cy q rear = some s) : rear ≤ s.2.2 := by
  rcases reveal_step_some cfg board cap d cx cy q rear s h with ⟨_, rfl⟩ | ⟨_, _, _, h3, _⟩
  · exact le_refl _
  · omega

theorem reveal_loop_rear_le (cfg : Config) (board : Grid) (cap : Nat) :
    ∀ (fuel : Nat) (d : Grid) (q : List (Int × Int)) (rear : Nat) (res : Grid × Nat),
      reveal_loop cfg board cap fuel d q rear = Fill.done res.1 res.2 → rear ≤ res.2 := by
  intro fuel
  induction fuel with
  | zero =>
    intro d q rear res h
    cases q with
    | nil =>
      simp only [reveal_loop, Fill.done.injEq] at h
      rw [← h.2]
    | cons c q => simp [reveal_loop] at h
  | succ fuel ih =>
    intro d q rear res h
    match q, h with
    | [], h =>
      simp only [reveal_loop, Fill.done.injEq] at h
      rw [← h.2]
    | (cx, cy) :: q, h =>
      simp only [reveal_loop] at h
      cases hs : reveal_step cfg board cap d cx cy q rear with
      | none =>
        rw [hs] at h
        cases h
      | some s =>
        rw [hs] at h
        exact le_trans (reveal_step_rear_le cfg board cap d cx cy q rear s hs) (ih _ _ _ res h)

/-- A run of the flood-fill loop that ends in an array of `cap1` ints ends in the
same way in any array that holds its final `rear`. -/
theorem reveal_loop_capacity (cfg : Config) (board : Grid) (cap1 cap2 : Nat) :
    ∀ (fuel : Nat) (d : Grid) (q : List (Int × Int)) (rear : Nat) (res : Grid × Nat),
      reveal_loop cfg board cap1 fuel d q rear = Fill.done res.1 res.2 → res.2 ≤ cap2 →
      reveal_loop cfg board cap2 fuel d q rear = Fill.done res.1 res.2 := by
  intro fuel
  induction fuel with
  | zero =>
    intro d q rear res h _
    cases q with
    | nil => simpa [reveal_loop] using h
    | cons c q => simp [reveal_loop] at h
  | succ fuel ih =>
    intro d q rear res h hc
    match q, h with
    | [], h => simpa [reveal_loop] using h
    | (cx, cy) :: q, h =>
      simp only [reveal_loop] at h ⊢
      cases hs : reveal_step cfg board cap1 d cx cy q rear with
      | none =>
        rw [hs] at h
        cases h
      | some s =>
        rw [hs] at h
        have hle := reveal_loop_rear_le cfg board cap1 fuel _ _ _ res h
        rw [reveal_step_capacity cfg board cap1 cap2 d cx cy q rear s hs (le_trans hle hc)]
        exact ih _ _ _ res h hc

theorem flood_fill_capacity (cfg : Config) (board : Grid) (cap1 cap2 fuel : Nat) (d : Grid)
    (x y : Int) (res : Grid × Nat)
    (h : (flood_fill cfg board cap1 fuel d x y).result = some res) (hc : res.2 ≤ cap2) :
    (flood_fill cfg board cap2 fuel d x y).result = some res := by
  obtain ⟨_, hl⟩ := flood_fill_done cfg board cap1 fuel d x y res h
  have h2 : 2 ≤ cap2 := le_trans (reveal_loop_rear_le cfg board cap1 fuel _ _ _ res hl) hc
  unfold flood_fill
  rw [if_pos h2, reveal_loop_capacity cfg board cap1 cap2 fuel _ _ _ res hl hc]
  rfl

theorem flood_fill_rear_le (cfg : Config) (board : Grid) (cap fuel : Nat) (d : Grid)
    (x y : Int) (res : Grid × Nat) (hb : in_bounds cfg x y = true)
    (h : (flood_fill cfg board cap fuel d x y).result = some res) : res.2 ≤ cap := by
  obtain ⟨h2, hl⟩ := flood_fill_done cfg board cap fuel d x y res h
  exact (reveal_loop_rear cfg board cap fuel _ _ _ res (in_bounds_singleton cfg x y hb) hl).2 h2

theorem queue_size_le_room (cfg : Config) : queue_size cfg ≤ queue_room cfg := by
  unfold queue_size queue_room
  omega

/-- A call of `reveal` that returns has written at most `queue_size` ints into its
queue: `reveal_rear` gives that number. -/
theorem reveal_rear_of_returns (cfg : Config) (fuel : Nat) (g g' : Game) (x y : Int)
    (h : reveal cfg fuel g x y = some g') :
    ∃ n, reveal_rear cfg fuel g x y = some n ∧ n ≤ queue_size cfg := by
  unfold reveal at h
  unfold reveal_rear
  split_ifs at h ⊢ with h1 h2
  · exact ⟨0, rfl, Nat.zero_le _⟩
  · exact ⟨0, rfl, Nat.zero_le _⟩
  · cases hp : place_on_first_move cfg g x y with
    | none => rw [hp] at h; cases h
    | some g1 =>
      rw [hp] at h
      rw [Option.some_bind] at h ⊢
      split_ifs at h ⊢ with hm
      · exact ⟨0, rfl, Nat.zero_le _⟩
      · cases hl : (flood_fill cfg g1.board (queue_size cfg) fuel g1.display_board x y).result
          with
        | none => rw [hl] at h; cases h
        | some res =>
          have hle := flood_fill_rear_le cfg g1.board _ fuel _ x y res
            (in_bounds_of_not_guard h1) hl
          rw [flood_fill_capacity cfg g1.board _ (queue_room cfg) fuel _ x y res hl
            (le_trans hle (queue_size_le_room cfg))]
          exact ⟨res.2, rfl, hle⟩

/-- A call of `reveal` whose queue, measured by `reveal_rear`, fits into the array
`queue` returns a state. -/
theorem reveal_returns_of_rear (cfg : Config) (fuel : Nat) (g : Game) (x y : Int) (n : Nat)
    (h : reveal_rear cfg fuel g x y = some n) (hn : n ≤ queue_size cfg) :
    ∃ g', reveal cfg fuel g x y = some g' := by
  unfold reveal_rear at h
  unfold reveal
  split_ifs at h ⊢ with h1 h2
  · exact ⟨g, rfl⟩
  · exact ⟨g, rfl⟩
  · cases hp : place_on_first_move cfg g x y with
    | none => rw [hp] at h; cases h
    | some g1 =>
      rw [hp] at h
      rw [Option.some_bind] at h ⊢
      split_ifs at h ⊢ with hm
      · exact ⟨_, rfl⟩
      · cases hl : (flood_fill cfg g1.board (queue_room cfg) fuel g1.display_board x y).result
          with
        | none => rw [hl] at h; cases h
        | some res =>
          rw [hl] at h
          simp only [Option.map_some', Option.some.injEq] at h
          rw [flood_fill_capacity cfg g1.board _ (queue_size cfg) fuel _ x y res hl
            (by rw [h]; exact hn)]
          exact ⟨_, rfl⟩

/-! ## The invariant of the game states -/

theorem accepted_iff (cfg : Config) :
    cfg.accepted = true ↔ cfg.MINES + 1 < cfg.WIDTH * cfg.HEIGHT := by
  unfold Config.accepted Config.too_many_mines
  simp only [Bool.not_eq_true', decide_eq_false_iff_not, ge_iff_le, not_le]
  constructor
  · intro h
    have : ((cfg.MINES : Int) + 1) < ((cfg.WIDTH * cfg.HEIGHT : Nat) : Int) := by
      push_cast
      omega
    exact_mod_cast this
  · intro h
    have : ((cfg.MINES + 1 : Nat) : Int) < ((cfg.WIDTH * cfg.HEIGHT : Nat) : Int) := by
      exact_mod_cast h
    push_cast at this
    omega

/-- C11: whatever the state before, after `init_game` every cell of the display is
`HIDDEN`, the board holds no mine (every cell is the empty placeholder, and the
mine count is 0), the first-move flag is set, and `game_over` and `won` are both
clear, so the status is `InProgress`. -/
theorem init_game_fresh (cfg : Config) (g : Game) :
    (∀ x y : Int, in_bounds cfg x y = true →
      (init_game cfg g).display_board y x = HIDDEN ∧ (init_game cfg g).board y x = HIDDEN ∧
      (init_game cfg g).board y x ≠ MINE) ∧
    count_mines cfg (init_game cfg g).board = 0 ∧
    (init_game cfg g).first_move = true ∧
    (init_game cfg g).game_over = false ∧ (init_game cfg g).won = false ∧
    status (init_game cfg g) = Status.InProgress := by
  have hHM : HIDDEN ≠ MINE := by decide
  refine ⟨?_, ?_, rfl, rfl, rfl, rfl⟩
  · intro x y hb
    simp [init_game, hb, hHM]
  · apply count_cells_zero
    intro x y hb
    simp [init_game, hb, hHM]

/-- C20, as the code has it: with positive width and height, the build-time check
accepts a configuration exactly when `MINES < WIDTH * HEIGHT - 1`, that is
`MINES ≤ WIDTH * HEIGHT - 2` (at least two cells without a mine), and refuses it
with `#error` otherwise. -/
theorem config_check (cfg : Config) (hW : 0 < cfg.WIDTH) (hH : 0 < cfg.HEIGHT) :
    (cfg.accepted = true ↔ (cfg.MINES : Int) < (cfg.WIDTH : Int) * (cfg.HEIGHT : Int) - 1) ∧
    (cfg.accepted = true ↔ cfg.MINES + 2 ≤ cfg.WIDTH * cfg.HEIGHT) ∧
    (cfg.too_many_mines = true ↔ ¬ (cfg.MINES + 2 ≤ cfg.WIDTH * cfg.HEIGHT)) := by
  have _hpos : 0 < cfg.WIDTH * cfg.HEIGHT := Nat.mul_pos hW hH
  have h1 : cfg.accepted = true ↔ cfg.MINES + 2 ≤ cfg.WIDTH * cfg.HEIGHT := by
    rw [accepted_iff]
    omega
  refine ⟨?_, h1, ?_⟩
  · unfold Config.accepted Config.too_many_mines
    simp only [Bool.not_eq_true', decide_eq_false_iff_not, ge_iff_le, not_le]
  · rw [← h1]
    unfold Config.accepted
    cases cfg.too_many_mines <;> simp

theorem config_check_witness :
    0 < cfg33.WIDTH ∧ 0 < cfg33.HEIGHT ∧
    (cfg33.accepted = true ↔ cfg33.MINES + 2 ≤ cfg33.WIDTH * cfg33.HEIGHT) ∧
    cfg33.accepted = true :=
  ⟨by decide, by decide, (config_check cfg33 (by decide) (by decide)).2.1, by decide⟩

/-- C20, counterexample: the 3 by 3 configuration with 8 mines has positive sides
and `MINES < WIDTH * HEIGHT` (8 < 9), yet the check refuses it. -/
theorem config_check_counterexample :
    0 < cfg33_8.WIDTH ∧ 0 < cfg33_8.HEIGHT ∧
    cfg33_8.MINES < cfg33_8.WIDTH * cfg33_8.HEIGHT ∧
    cfg33_8.too_many_mines = true ∧ cfg33_8.accepted = false := by
  decide

/-! ## Counting flags -/

/-- C15: in every state, so in every state reached from a fresh game by `flag` and
`reveal` calls, the value `count_flags` returns is the number of coordinates of
the board whose display cell is `FLAGGED`.  The function only reads the display:
its model takes the state and gives a number, there is no state after the call
other than the one before it. -/
theorem count_flags_eq (cfg : Config) (g : Game) :
    count_flags cfg g = (flagged_cells cfg g).card := by
  unfold count_flags flagged_cells
  rw [count_cells_eq_card]
  congr 1
  apply Finset.filter_congr
  intro c _
  simp

/-! ## The adjacent mine count -/

theorem length_filter_eq_sum {α : Type} (p : α → Bool) (l : List α) :
    (l.filter p).length = (l.map fun a => if p a = true then 1 else 0).sum := by
  induction l with
  | nil => rfl
  | cons a l ih =>
    rw [List.filter_cons]
    split_ifs with h
    · simp [h, ih]
      omega
    · simp [h, ih]

/-- The loops of `count_adjacent_mines` run over the cell itself too: the result is
the number of neighbouring mines, plus one when the cell is on the board and
holds a mine. -/
theorem count_adjacent_mines_eq (cfg : Config) (board : Grid) (x y : Int) :
    count_adjacent_mines cfg board x y =
      neighbour_mines cfg board x y +
        (if (in_bounds cfg x y && decide (board y x = MINE)) = true then 1 else 0) := by
  unfold neighbour_mines
  rw [length_filter_eq_sum]
  simp only [count_adjacent_mines, deltas, neighbour_offsets, List.map_cons, List.map_nil,
    List.sum_cons, List.sum_nil, Int.add_zero]
  omega

/-- C18, as the code has it: for every board and every in-bounds coordinate `(x, y)`
that holds no mine itself, `count_adjacent_mines(x, y)` returns the number of
the 8 neighbouring coordinates, clipped to the board bounds, that hold a mine,
and that number is at most 8. -/
theorem count_adjacent_mines_of_safe (cfg : Config) (board : Grid) (x y : Int)
    (_hb : in_bounds cfg x y = true) (hm : board y x ≠ MINE) :
    count_adjacent_mines cfg board x y = neighbour_mines cfg board x y ∧
    neighbour_mines cfg board x y ≤ 8 := by
  have h := count_adjacent_mines_eq cfg board x y
  have h8 := count_adjacent_mines_le_eight cfg board x y hm
  simp only [hm, decide_False, Bool.and_false, Bool.false_eq_true, if_false,
    Nat.add_zero] at h
  exact ⟨h, h ▸ h8⟩

theorem count_adjacent_mines_of_safe_witness :
    in_bounds cfg33 1 1 = true ∧ game33.board 1 1 ≠ MINE ∧
    count_adjacent_mines cfg33 game33.board 1 1 = neighbour_mines cfg33 game33.board 1 1 ∧
    neighbour_mines cfg33 game33.board 1 1 = 1 :=
  ⟨by decide, by decide,
    (count_adjacent_mines_of_safe cfg33 game33.board 1 1 (by decide) (by decide)).1,
    by decide⟩

/-- C18, counterexample: on the 3 by 3 board with its one mine at `(0,0)`, the cell
`(0,0)` is in bounds and none of its neighbours holds a mine, but
`count_adjacent_mines(0, 0)` returns 1: it counts the mine of the cell itself. -/
theorem count_adjacent_mines_counterexample :
    in_bounds cfg33 0 0 = true ∧
    neighbour_mines cfg33 game33.board 0 0 = 0 ∧
    count_adjacent_mines cfg33 game33.board 0 0 = 1 := by
  decide

/-! ## Revealed cells show the true count -/

/-- C13, the code at a failing input: on the 3 by 3 board with one mine at `(0,0)`
(a configuration the build accepts) and every cell hidden, `reveal(2, 1)` on
the in-bounds hidden cell `(2,1)`, which holds no mine, needs `rear = 20`: it
puts 10 coordinate pairs on its queue, and `queue` is an array of
`2 * WIDTH * HEIGHT = 18` ints for 9 pairs; the fifth iteration writes outside
the array and the call has no defined result.  On the default 9 by 9 board with
the 10 mines on the top row and at `(0,1)`, the first move `reveal(8, 8)` needs
`rear = 446`, and the array has 162 ints. -/
theorem queue_overflow_example :
    (cfg33.accepted = true ∧ in_bounds cfg33 2 1 = true ∧
      game33.display_board 1 2 = HIDDEN ∧ game33.board 1 2 ≠ MINE ∧
      reveal_rear cfg33 10 game33 2 1 = some 20 ∧
      2 * cfg33.WIDTH * cfg33.HEIGHT = 18 ∧
      reveal_overflows cfg33 5 game33 2 1 = true ∧
      ∀ fuel : Nat, reveal cfg33 fuel game33 2 1 = none) ∧
    (Config.default.accepted = true ∧ in_bounds Config.default 8 8 = true ∧
      reveal_rear Config.default 300 fresh99 8 8 = some 446 ∧
      2 * Config.default.WIDTH * Config.default.HEIGHT = 162 ∧
      reveal_overflows Config.default 40 fresh99 8 8 = true) := by
  have h3 : reveal_overflows cfg33 5 game33 2 1 = true := by decide
  refine ⟨⟨by decide, by decide, by decide, by decide, by decide, by decide, h3,
    reveal_none_of_overflows cfg33 5 game33 2 1 h3⟩, by decide, by decide, ?_, by decide, ?_⟩
  · set_option maxRecDepth 1000000 in decide
  · set_option maxRecDepth 1000000 in decide

/-! ## The iterations of the flood fill -/

/-- C14, the code at failing inputs.  On the 3 by 3 board with its mine at `(2,2)` and
every cell hidden, the loop of `reveal` started at the in-bounds cell `(0,0)`
writes outside the array `queue` (18 ints) in its third iteration; with no
amount of fuel does the model reach the end of the loop.  The same holds on the
default 9 by 9 board with the mines on the top row and at `(0,1)`, started at
`(8,8)`: the 40th iteration writes outside the array of 162 ints. -/
theorem flood_fill_overflow_example :
    (in_bounds cfg33 0 0 = true ∧
      (flood_fill cfg33 game33_22.board (queue_size cfg33) 3
        game33_22.display_board 0 0).is_overflow = true ∧
      ∀ fuel : Nat, (flood_fill cfg33 game33_22.board (queue_size cfg33) fuel
        game33_22.display_board 0 0).result = none) ∧
    (in_bounds Config.default 8 8 = true ∧
      (flood_fill Config.default placed99.board (queue_size Config.default) 40
        placed99.display_board 8 8).is_overflow = true ∧
      ∀ fuel : Nat, (flood_fill Config.default placed99.board (queue_size Config.default) fuel
        placed99.display_board 8 8).result = none) := by
  have h3 : (flood_fill cfg33 game33_22.board (queue_size cfg33) 3
      game33_22.display_board 0 0).is_overflow = true := by decide
  have h9 : (flood_fill Config.default placed99.board (queue_size Config.default) 40
      placed99.display_board 8 8).is_overflow = true := by
    set_option maxRecDepth 1000000 in decide
  exact ⟨⟨by decide, h3, flood_fill_none_of_overflow cfg33 _ _ 3 _ 0 0 h3⟩,
    ⟨by decide, h9, flood_fill_none_of_overflow Config.default _ _ 40 _ 8 8 h9⟩⟩

/-! ## Input after the end of the game -/

/-- C19, the code at a failing input: a fresh 3 by 3 game with its mine at `(0,0)` and
the input lines `r 2 2`, `r 0 0`.  The second `game_continue` finds the win and
makes the status `Won`, but returns 1, so `process_input` handles `r 0 0` and
calls `reveal(0, 0)`: at the third `game_continue` the display shows the
exploded mine at `(0,0)`, with the status still `Won`. -/
theorem action_after_won_example :
    ((main_loop cfg33 9 lines33 fresh33).getD []).map
        (fun e => (status e.1, e.2, e.1.display_board 0 0))
      = [(Status.InProgress, some (Input.command 'r' 2 2), HIDDEN),
         (Status.Won, some (Input.command 'r' 0 0), HIDDEN),
         (Status.Won, none, MINE)] := by
  decide

/-! ## The extent of the flood fill -/

theorem mem_deltas (a : Int) : a ∈ deltas ↔ (-1 ≤ a ∧ a ≤ 1) := by
  simp only [deltas, List.mem_cons, List.mem_singleton, List.not_mem_nil, or_false]
  omega

theorem is_neighbour_iff (x y nx ny : Int) :
    is_neighbour x y nx ny ↔
      ∃ dx dy : Int, dx ∈ deltas ∧ dy ∈ deltas ∧ ¬ (dx = 0 ∧ dy = 0) ∧
        nx = x + dx ∧ ny = y + dy := by
  unfold is_neighbour
  constructor
  · rintro ⟨h1, h2, h3⟩
    refine ⟨nx - x, ny - y, (mem_deltas _).2 (by omega), (mem_deltas _).2 (by omega), ?_,
      by omega, by omega⟩
    rintro ⟨ha, hb⟩
    exact h3 ⟨by omega, by omega⟩
  · rintro ⟨dx, dy, hx, hy, h0, rfl, rfl⟩
    rw [mem_deltas] at hx hy
    refine ⟨by omega, by omega, ?_⟩
    rintro ⟨ha, hb⟩
    exact h0 ⟨by omega, by omega⟩

theorem mem_enqueued_neighbours_iff (cfg : Config) (board d : Grid) (cx cy : Int)
    (p : Int × Int) :
    p ∈ enqueued_neighbours cfg board d cx cy ↔
      is_neighbour cx cy p.1 p.2 ∧ in_bounds cfg p.1 p.2 = true ∧ d p.2 p.1 = HIDDEN ∧
        board p.2 p.1 ≠ MINE := by
  rw [is_neighbour_iff]
  unfold enqueued_neighbours
  rw [List.mem_flatMap]
  constructor
  · rintro ⟨dy, hdy, h⟩
    rw [List.mem_filterMap] at h
    obtain ⟨dx, hdx, h⟩ := h
    split_ifs at h with h0 hc
    cases h
    simp only [Bool.and_eq_true, decide_eq_true_eq] at hc
    exact ⟨⟨dx, dy, hdx, hdy, h0, rfl, rfl⟩, hc.1.1, hc.1.2, hc.2⟩
  · rintro ⟨⟨dx, dy, hdx, hdy, h0, hx, hy⟩, hb, hh, hm⟩
    refine ⟨dy, hdy, ?_⟩
    rw [List.mem_filterMap]
    refine ⟨dx, hdx, ?_⟩
    rw [if_neg h0, ← hx, ← hy, if_pos]
    simp [hb, hh, hm]

theorem neighbour_mines_zero (cfg : Config) (board : Grid) (x y nx ny : Int)
    (h0 : neighbour_mines cfg board x y = 0) (hn : is_neighbour x y nx ny)
    (hb : in_bounds cfg nx ny = true) : board ny nx ≠ MINE := by
  unfold neighbour_mines at h0
  rw [List.length_eq_zero, List.filter_eq_nil_iff] at h0
  obtain ⟨⟨h1, h2⟩, ⟨h3, h4⟩, h5⟩ := hn
  have hmem : (nx - x, ny - y) ∈ neighbour_offsets := by
    have hx : nx - x = -1 ∨ nx - x = 0 ∨ nx - x = 1 := by omega
    have hy : ny - y = -1 ∨ ny - y = 0 ∨ ny - y = 1 := by omega
    have hne : ¬ (nx - x = 0 ∧ ny - y = 0) := fun h => h5 ⟨by omega, by omega⟩
    rcases hx with hx | hx | hx <;> rcases hy with hy | hy | hy <;>
      first
        | (rw [hx, hy]; decide)
        | exact absurd (And.intro hx hy) hne
  have := h0 _ hmem
  have hx : x + (nx - x) = nx := by omega
  have hy : y + (ny - y) = ny := by omega
  simp only [hx, hy, hb, Bool.true_and, decide_eq_true_eq] at this
  exact this

theorem count_zero_neighbour_mines (cfg : Config) (board : Grid) (x y : Int)
    (h : count_adjacent_mines cfg board x y = 0) : neighbour_mines cfg board x y = 0 := by
  have := count_adjacent_mines_eq cfg board x y
  omega

theorem cascade_cell (cfg : Config) (board d0 : Grid) (tx ty : Int)
    (hb : in_bounds cfg tx ty = true) (hh : d0 ty tx = HIDDEN) (hm : board ty tx ≠ MINE)
    (x y : Int) (h : Cascade cfg board d0 tx ty x y) :
    in_bounds cfg x y = true ∧ d0 y x = HIDDEN ∧ board y x ≠ MINE := by
  induction h with
  | target => exact ⟨hb, hh, hm⟩
  | spread x y nx ny _ h0 hn hnb hnh _ =>
    exact ⟨hnb, hnh, neighbour_mines_zero cfg board x y nx ny h0 hn hnb⟩

/-- One iteration of the flood fill keeps the cascade invariant. -/
theorem cascade_inv_step (cfg : Config) (board d0 : Grid) (tx ty : Int) (cap : Nat) (d : Grid)
    (cx cy : Int) (q : List (Int × Int)) (rear : Nat) (s : Grid × List (Int × Int) × Nat)
    (hI : CascadeInv cfg board d0 tx ty d ((cx, cy) :: q))
    (hs : reveal_step cfg board cap d cx cy q rear = some s) :
    CascadeInv cfg board d0 tx ty s.1 s.2.1 := by
  have hcc : Cascade cfg board d0 tx ty cx cy := hI.queued (cx, cy) (List.mem_cons_self _ _)
  obtain ⟨hok', hrev', hne', hsub⟩ := reveal_step_spec cfg board cap d cx cy q rear s hI.ok hs
  rcases reveal_step_some cfg board cap d cx cy q rear s hs with ⟨hh, rfl⟩ | ⟨hh, hd, hq, _, _⟩
  · refine ⟨hI.rev, fun p hp => hI.ok p (List.mem_cons_of_mem _ hp),
      fun p hp => hI.queued p (List.mem_cons_of_mem _ hp), hI.changed, ?_, ?_⟩
    · intro x y hx0 hx hc0 nx ny hn hnb hn0
      rcases hI.closed x y hx0 hx hc0 nx ny hn hnb hn0 with h | h
      · exact Or.inl h
      · rcases List.mem_cons.1 h with h | h
        · cases h
          exact Or.inl hh
        · exact Or.inr h
    · rcases hI.start with h | h
      · exact Or.inl h
      · rcases List.mem_cons.1 h with h | h
        · cases h
          exact Or.inl hh
        · exact Or.inr h
  · have hkeep : ∀ x y : Int, d y x ≠ HIDDEN → s.1 y x ≠ HIDDEN := by
      intro x y hn
      rw [reveals_of_not_hidden cfg board _ _ hrev' x y hn]
      exact hn
    have hrev0 := reveals_trans cfg board _ _ _ hI.rev hrev'
    have hd0 : ∀ x y : Int, s.1 y x = HIDDEN → d0 y x = HIDDEN := by
      intro x y hx
      rcases hrev0 x y with h | h
      · rw [← h]
        exact hx
      · exact h.1
    refine ⟨hrev0, hok', ?_, ?_, ?_, ?_⟩
    · intro p hp
      rw [hq] at hp
      rcases List.mem_append.1 hp with hp | hp
      · exact hI.queued p (List.mem_cons_of_mem _ hp)
      · split_ifs at hp with h0
        · rw [← hd] at hp
          obtain ⟨hn, hb, hph, _⟩ := (mem_enqueued_neighbours_iff cfg board _ cx cy p).1 hp
          exact Cascade.spread cx cy p.1 p.2 hcc (count_zero_neighbour_mines cfg board cx cy h0)
            hn hb (hd0 _ _ hph)
        · exact absurd hp (List.not_mem_nil p)
    · intro x y hxy
      by_cases hc : y = cy ∧ x = cx
      · obtain ⟨rfl, rfl⟩ := hc
        exact hcc
      · apply hI.changed
        rw [hd, Grid.set_other _ _ _ _ _ _ hc] at hxy
        exact hxy
    · intro x y hx0 hx hc0 nx ny hn hnb hn0
      by_cases hnh : s.1 ny nx = HIDDEN
      · right
        by_cases hc : y = cy ∧ x = cx
        · obtain ⟨rfl, rfl⟩ := hc
          rw [hq, if_pos hc0]
          apply List.mem_append_right
          rw [← hd]
          exact (mem_enqueued_neighbours_iff cfg board _ x y (nx, ny)).2
            ⟨hn, hnb, hnh, neighbour_mines_zero cfg board x y nx ny
              (count_zero_neighbour_mines cfg board x y hc0) hn hnb⟩
        · have hx' : d y x ≠ HIDDEN := by
            rw [hd, Grid.set_other _ _ _ _ _ _ hc] at hx
            exact hx
          rcases hI.closed x y hx0 hx' hc0 nx ny hn hnb hn0 with h | h
          · exact absurd hnh (hkeep nx ny h)
          · rcases List.mem_cons.1 h with h | h
            · cases h
              exact absurd hnh hne'
            · exact hsub _ h
      · exact Or.inl hnh
    · rcases hI.start with h | h
      · exact Or.inl (hkeep tx ty h)
      · rcases List.mem_cons.1 h with h | h
        · cases h
          exact Or.inl hne'
        · exact Or.inr (hsub _ h)

/-- When the flood-fill loop ends, the cascade invariant holds with an empty queue. -/
theorem cascade_inv_loop (cfg : Config) (board d0 : Grid) (tx ty : Int) (cap : Nat) :
    ∀ (fuel : Nat) (d : Grid) (q : List (Int × Int)) (rear : Nat) (res : Grid × Nat),
      CascadeInv cfg board d0 tx ty d q →
      reveal_loop cfg board cap fuel d q rear = Fill.done res.1 res.2 →
      CascadeInv cfg board d0 tx ty res.1 [] := by
  intro fuel
  induction fuel with
  | zero =>
    intro d q rear res hI h
    cases q with
    | nil =>
      simp only [reveal_loop, Fill.done.injEq] at h
      rw [← h.1]
      exact hI
    | cons c q => simp [reveal_loop] at h
  | succ fuel ih =>
    intro d q rear res hI h
    match q, hI, h with
    | [], hI, h =>
      simp only [reveal_loop, Fill.done.injEq] at h
      rw [← h.1]
      exact hI
    | (cx, cy) :: q, hI, h =>
      simp only [reveal_loop] at h
      cases hs : reveal_step cfg board cap d cx cy q rear with
      | none =>
        rw [hs] at h
        cases h
      | some s =>
        rw [hs] at h
        exact ih _ _ _ res (cascade_inv_step cfg board d0 tx ty cap d cx cy q rear s hI hs) h

theorem cascade_inv_start (cfg : Config) (board d0 : Grid) (tx ty : Int)
    (hb : in_bounds cfg tx ty = true) (hm : board ty tx ≠ MINE) :
    CascadeInv cfg board d0 tx ty d0 [(tx, ty)] := by
  refine ⟨reveals_refl cfg board d0, queue_ok_singleton cfg board tx ty hb hm, ?_, ?_, ?_, ?_⟩
  · intro p hp
    rw [List.mem_singleton] at hp
    subst hp
    exact Cascade.target
  · intro x y h
    exact absurd rfl h
  · intro x y h0 h
    exact absurd h0 h
  · exact Or.inr (List.mem_singleton.2 rfl)

/-- What the cascade invariant says once the queue is empty: the cells of the
cascade are exactly the cells that changed, each shows its count of
neighbouring mines, and all other cells are as before. -/
theorem cascade_inv_final (cfg : Config) (board d0 d : Grid) (tx ty : Int)
    (hb : in_bounds cfg tx ty = true) (hh : d0 ty tx = HIDDEN) (hm : board ty tx ≠ MINE)
    (hI : CascadeInv cfg board d0 tx ty d []) (x y : Int) :
    (Cascade cfg board d0 tx ty x y →
      d0 y x = HIDDEN ∧ d y x = revealed_char (neighbour_mines cfg board x y) ∧
        is_revealed (d y x) = true) ∧
    (¬ Cascade cfg board d0 tx ty x y → d y x = d0 y x) := by
  have hshown : ∀ a b : Int, d0 b a = HIDDEN → d b a ≠ HIDDEN →
      board b a ≠ MINE ∧ d b a = revealed_char (count_adjacent_mines cfg board a b) := by
    intro a b h0 h1
    rcases hI.rev a b with h | h
    · rw [h] at h1
      exact absurd h0 h1
    · exact ⟨h.2.2.1, h.2.2.2⟩
  have hall : ∀ a b : Int, Cascade cfg board d0 tx ty a b → d b a ≠ HIDDEN := by
    intro a b hc
    induction hc with
    | target =>
      rcases hI.start with h | h
      · exact h
      · exact absurd h (List.not_mem_nil _)
    | spread a b na nb hc h0 hn hnb hnh ih =>
      have hab := cascade_cell cfg board d0 tx ty hb hh hm a b hc
      have hcnt : count_adjacent_mines cfg board a b = 0 := by
        have := count_adjacent_mines_eq cfg board a b
        simp only [hab.2.2, decide_False, Bool.and_false, Bool.false_eq_true, if_false,
          Nat.add_zero] at this
        rw [this, h0]
      rcases hI.closed a b hab.2.1 ih hcnt na nb hn hnb hnh with h | h
      · exact h
      · exact absurd h (List.not_mem_nil _)
  constructor
  · intro hc
    have hcell := cascade_cell cfg board d0 tx ty hb hh hm x y hc
    obtain ⟨hsafe, hval⟩ := hshown x y hcell.2.1 (hall x y hc)
    have heq := count_adjacent_mines_eq cfg board x y
    simp only [hsafe, decide_False, Bool.and_false, Bool.false_eq_true, if_false,
      Nat.add_zero] at heq
    have h8 := count_adjacent_mines_le_eight cfg board x y hsafe
    refine ⟨hcell.2.1, ?_, ?_⟩
    · rw [hval, heq]
    · rw [hval]
      exact is_revealed_revealed_char _ h8
  · intro hc
    by_contra hne
    exact hc (hI.changed x y hne)

/-- The extent of a cascade, as far as the code goes: in a state with the mines
placed (first-move flag clear), a call of `reveal` with `reveal_fuel` iterations
on an in-bounds `HIDDEN` target that holds no mine either writes outside its
array `queue`, or returns without touching the board, and then the cells it has
turned from `HIDDEN` to revealed are exactly the cells of the cascade (the least
set that contains the target and, for each of its cells with adjacent mine
count 0, every in-bounds neighbour that was `HIDDEN` before the call); every
cell of the cascade shows its count of neighbouring mines and every cell
outside the cascade keeps the character it had. -/
theorem cascade_extent_unless_overflow (cfg : Config) (fuel : Nat) (g : Game) (tx ty : Int)
    (hfm : g.first_move = false) (hb : in_bounds cfg tx ty = true)
    (hh : g.display_board ty tx = HIDDEN) (hm : g.board ty tx ≠ MINE)
    (hf : reveal_fuel cfg ≤ fuel) :
    reveal_overflows cfg fuel g tx ty = true ∨
    ∃ g', reveal cfg fuel g tx ty = some g' ∧ g'.board = g.board ∧
      (∀ x y : Int, Cascade cfg g.board g.display_board tx ty x y ↔
        (g.display_board y x = HIDDEN ∧ is_revealed (g'.display_board y x) = true)) ∧
      (∀ x y : Int, Cascade cfg g.board g.display_board tx ty x y →
        g'.display_board y x = revealed_char (neighbour_mines cfg g.board x y)) ∧
      (∀ x y : Int, ¬ Cascade cfg g.board g.display_board tx ty x y →
        g'.display_board y x = g.display_board y x) := by
  have hp : place_on_first_move cfg g tx ty = some g := by
    unfold place_on_first_move
    rw [hfm]
    rfl
  rcases reveal_returns_or_overflows cfg fuel g tx ty hf
      (fun h => by rw [hfm] at h; cases h) with ⟨g', hg'⟩ | hov
  · right
    refine ⟨g', hg', ?_⟩
    rcases reveal_cases cfg fuel g g' tx ty hg' with ⟨hs, _⟩ | ⟨_, _, g1, hg1, hc⟩
    · rcases hs with hs | hs
      · rw [hb] at hs
        cases hs
      · exact absurd hh hs
    · rw [hp] at hg1
      cases hg1
      rcases hc with ⟨hmine, _⟩ | ⟨_, res, hres, rfl⟩
      · exact absurd hmine hm
      · have hI := cascade_inv_loop cfg g.board g.display_board tx ty _ fuel _ _ _ res
          (cascade_inv_start cfg g.board g.display_board tx ty hb hm) hres
        have hfin := cascade_inv_final cfg g.board g.display_board res.1 tx ty hb hh hm hI
        refine ⟨rfl, ?_, ?_, ?_⟩
        · intro x y
          constructor
          · intro hc
            exact ⟨((hfin x y).1 hc).1, ((hfin x y).1 hc).2.2⟩
          · rintro ⟨h0, hr⟩
            by_contra hc
            have := (hfin x y).2 hc
            have hr' : is_revealed (res.1 y x) = true := hr
            rw [this, h0] at hr'
            exact absurd hr' (by decide)
        · intro x y hc
          exact ((hfin x y).1 hc).2.1
        · intro x y hc
          exact (hfin x y).2 hc
  · exact Or.inl hov

/-- C16, the code at failing inputs.  First the 3 by 3 game with the mine placed at
`(2,2)` and every cell hidden, and the target `(0,0)`: in bounds, `HIDDEN`, no
mine.  The cascade from `(0,0)` contains the cell `(0,2)`, two steps away
through the count-0 cell `(0,1)`, but the flood fill of `reveal(0, 0)` needs 26
ints of queue and writes outside the array of 18 in its third iteration: the
call has no defined result, so the cells of the cascade are not revealed by it.
Then the default 9 by 9 game with the mines placed on the top row and at
`(0,1)` and the target `(8,8)`: the 40th iteration writes outside the array of
162 ints. -/
theorem cascade_overflow_example :
    (game33_22.first_move = false ∧ in_bounds cfg33 0 0 = true ∧
      game33_22.display_board 0 0 = HIDDEN ∧ game33_22.board 0 0 ≠ MINE ∧
      Cascade cfg33 game33_22.board game33_22.display_board 0 0 0 2 ∧
      reveal_overflows cfg33 3 game33_22 0 0 = true ∧
      reveal_rear cfg33 13 game33_22 0 0 = some 26 ∧ queue_size cfg33 = 18 ∧
      ∀ fuel : Nat, reveal cfg33 fuel game33_22 0 0 = none) ∧
    (placed99.first_move = false ∧ in_bounds Config.default 8 8 = true ∧
      placed99.display_board 8 8 = HIDDEN ∧ placed99.board 8 8 ≠ MINE ∧
      count_mines Config.default placed99.board = 10 ∧
      reveal_overflows Config.default 40 placed99 8 8 = true ∧
      queue_size Config.default = 162 ∧
      ∀ fuel : Nat, reveal Config.default fuel placed99 8 8 = none) := by
  have h3 : reveal_overflows cfg33 3 game33_22 0 0 = true := by decide
  have h9 : reveal_overflows Config.default 40 placed99 8 8 = true := by
    set_option maxRecDepth 1000000 in decide
  refine ⟨⟨rfl, by decide, by decide, by decide, ?_, h3, by decide, by decide,
    reveal_none_of_overflows cfg33 3 game33_22 0 0 h3⟩,
    by decide, by decide, by decide, by decide, ?_, h9, by decide,
    reveal_none_of_overflows Config.default 40 placed99 8 8 h9⟩
  · apply Cascade.spread 0 1 0 2 _ (by decide) (by unfold is_neighbour; decide) (by decide)
      (by decide)
    exact Cascade.spread 0 0 0 1 Cascade.target (by decide) (by unfold is_neighbour; decide)
      (by decide) (by decide)
  · set_option maxRecDepth 1000000 in decide

end Minesweeper
